import Mathlib

/-!
# pthread_guide: the thread-pool server (`thread-pool-server-changes/`)

A shallow embedding of the requests queue (`requests_queue.c`), the handler
threads pool (`handler_threads_pool.c`), the resize step of the producer
loop (`main.c`) and the loop of a handler thread (`handler_thread.c`, as a
step machine of one thread with the other threads as interference),
followed by theorems about them.

Conventions of the embedding.

* A pointer is an `Option Nat`: `none` is `NULL`, `some a` is the address `a`.
* The heap of one struct type is a function `Nat → Option node`; an address
  that maps to `none` is not allocated (never was, or was freed).
* `malloc` is the environment: the address it returns is an argument of the
  operation (`none` when `malloc` returns `NULL`).  The operation has no
  result when that address is already live, since `malloc` never returns a
  live block.
* A C `int` is an `Int`; an increment that would leave the range of `int`
  is undefined behaviour and the operation has no result (`none`).
  Dereferencing `NULL` or a freed address has no result either, and neither
  has the `exit(1)` taken when `malloc` fails.
* The pthreads primitives are recorded in a log, in call order; the
  recursive mutex is the hold depth of the calling thread.
-/

namespace PthreadGuide

/-! ## Machine integers and memory -/

/-- Largest value of a 32-bit C `int`. -/
def INT_MAX : Int := 2147483647

/-- The C statement `x++` on an `int`: undefined (no result) at `INT_MAX`. -/
def int_incr (x : Int) : Option Int :=
  if x < INT_MAX then some (x + 1) else none

/-- Write `v` at address `a` of a heap (`v = none` frees the cell). -/
def store {α : Type} (mem : Nat → Option α) (a : Nat) (v : Option α) : Nat → Option α :=
  fun x => if x = a then v else mem x

/-! ## requests_queue.h / requests_queue.c -/

/-- Struct `request`: format of a single request. -/
structure request where
  /-- number of the request -/
  number : Int
  /-- pointer to next request, NULL if none -/
  next : Option Nat
deriving DecidableEq

/-- Struct `requests_queue` (the mutex and condition variable pointers are
the two process-wide objects of `main.c`; they are the `depth` and `log`
of the world below). -/
structure requests_queue where
  /-- head of linked list of requests -/
  requests : Option Nat
  /-- pointer to last request -/
  last_request : Option Nat
  /-- number of requests in queue -/
  num_requests : Int
deriving DecidableEq

/-- Calls of pthreads synchronisation primitives, as logged. -/
inductive SyncEvent where
  | lock
  | unlock
  | signal
  | wait
deriving DecidableEq

/-- Everything the queue functions read or write: the heap of `request`
nodes, the queue struct, the calling thread's hold depth on the recursive
mutex `request_mutex`, and the log of synchronisation calls. -/
structure QueueWorld where
  mem : Nat → Option request
  queue : requests_queue
  depth : Nat
  log : List SyncEvent

/-- Model of `pthread_mutex_lock` on the recursive mutex, by the calling thread. -/
def pthread_mutex_lock (w : QueueWorld) : QueueWorld :=
  { w with depth := w.depth + 1, log := w.log ++ [SyncEvent.lock] }

/-- Model of `pthread_mutex_unlock` on the recursive mutex: one level is
released; a thread that does not hold the mutex gets an error and nothing
changes. -/
def pthread_mutex_unlock (w : QueueWorld) : QueueWorld :=
  { w with depth := w.depth - 1, log := w.log ++ [SyncEvent.unlock] }

/-- Model of `pthread_cond_signal`. -/
def pthread_cond_signal (w : QueueWorld) : QueueWorld :=
  { w with log := w.log ++ [SyncEvent.signal] }

/-- Function `init_requests_queue` (requests_queue.c:14-31). -/
def init_requests_queue : QueueWorld :=
  { mem := fun _ => none
    queue := { requests := none, last_request := none, num_requests := 0 }
    depth := 0
    log := [] }

/-- The list update of `add_request` (requests_queue.c:63-70), for the new
node at address `a`. -/
def add_request_link (w : QueueWorld) (a : Nat) : Option QueueWorld :=
  if w.queue.num_requests = 0 then
    some { w with queue := { w.queue with requests := some a, last_request := some a } }
  else
    match w.queue.last_request with
    | none => none
    | some l =>
      match w.mem l with
      | none => none
      | some r =>
        some { w with
          mem := store w.mem l (some { r with next := some a })
          queue := { w.queue with last_request := some a } }

/-- Function `add_request` (requests_queue.c:40-85).  `m` is the result of
`malloc`. -/
def add_request (w : QueueWorld) (request_num : Int) (m : Option Nat) : Option QueueWorld :=
  match m with
  | none => none
  | some a =>
    if (w.mem a).isSome then none
    else
      let w1 : QueueWorld :=
        { w with mem := store w.mem a (some { number := request_num, next := none }) }
      let w2 := pthread_mutex_lock w1
      match add_request_link w2 a with
      | none => none
      | some w3 =>
        match int_incr w3.queue.num_requests with
        | none => none
        | some n =>
          let w4 : QueueWorld := { w3 with queue := { w3.queue with num_requests := n } }
          let w5 := pthread_mutex_unlock w4
          some (pthread_cond_signal w5)

/-- The body of `get_request` between lock and unlock
(requests_queue.c:108-119). -/
def get_request_unlink (w : QueueWorld) : Option (QueueWorld × Option Nat) :=
  if w.queue.num_requests > 0 then
    match w.queue.requests with
    | none => none
    | some a =>
      match w.mem a with
      | none => none
      | some r =>
        let q1 : requests_queue := { w.queue with requests := r.next }
        let q2 : requests_queue :=
          if q1.requests = none then { q1 with last_request := none } else q1
        some ({ w with queue := { q2 with num_requests := q2.num_requests - 1 } }, some a)
  else
    some (w, none)

/-- Function `get_request` (requests_queue.c:96-126): the new world and the
returned pointer. -/
def get_request (w : QueueWorld) : Option (QueueWorld × Option Nat) :=
  let w1 := pthread_mutex_lock w
  match get_request_unlink w1 with
  | none => none
  | some (w2, a_request) => some (pthread_mutex_unlock w2, a_request)

/-- Function `get_requests_number` (requests_queue.c:133-151). -/
def get_requests_number (w : QueueWorld) : QueueWorld × Int :=
  let w1 := pthread_mutex_lock w
  let num_requests := w1.queue.num_requests
  (pthread_mutex_unlock w1, num_requests)

/-- Model of `free` on a `request` pointer: `free(NULL)` does nothing,
freeing a dead address is undefined. -/
def free_request (w : QueueWorld) (p : Option Nat) : Option QueueWorld :=
  match p with
  | none => some w
  | some a =>
    if (w.mem a).isSome then some { w with mem := store w.mem a none } else none

/-! ## Linked lists in a heap -/

/-- The nodes reached from pointer `p` by following `next` until `NULL` are
exactly the addresses `l`, in order. -/
def isChain {α : Type} (next : α → Option Nat) (mem : Nat → Option α) :
    Option Nat → List Nat → Bool
  | p, [] => p.isNone
  | p, b :: l =>
    p == some b &&
      match mem b with
      | none => false
      | some r => isChain next mem (next r) l

/-- Walk from `p` along `next`, for at most `fuel` nodes. -/
def walk {α : Type} (next : α → Option Nat) (mem : Nat → Option α) :
    Nat → Option Nat → List Nat
  | 0, _ => []
  | _ + 1, none => []
  | fuel + 1, some a =>
    match mem a with
    | none => []
    | some r => a :: walk next mem fuel (next r)

/-- The request numbers stored at the addresses `l`. -/
def numbers (mem : Nat → Option request) (l : List Nat) : List Int :=
  l.filterMap (fun a => (mem a).map request.number)

/-! ## Sequences of queue calls -/

/-- One call on the queue by some thread.  `get caller_frees` is a call
of `get_request` whose caller frees the returned request afterwards when
`caller_frees` is set (as `handle_requests_loop` and `delete_requests_queue`
do). -/
inductive QueueCall where
  | add (request_num : Int) (m : Option Nat)
  | get (caller_frees : Bool)

/-- The request number carried by a returned pointer (nothing for `NULL`). -/
def carried (w : QueueWorld) (p : Option Nat) : List Int :=
  match p with
  | none => []
  | some a =>
    match w.mem a with
    | none => []
    | some r => [r.number]

/-- Perform one call: the new world and the number carried by a non-`NULL`
result of `get_request`. -/
def queue_call (w : QueueWorld) : QueueCall → Option (QueueWorld × List Int)
  | QueueCall.add request_num m =>
    match add_request w request_num m with
    | none => none
    | some w1 => some (w1, [])
  | QueueCall.get caller_frees =>
    match get_request w with
    | none => none
    | some (w1, p) =>
      match (if caller_frees then free_request w1 p else some w1) with
      | none => none
      | some w2 => some (w2, carried w1 p)

/-- Perform a sequence of calls from world `w`, collecting what the
non-`NULL` results of `get_request` carried, in call order. -/
def queue_calls (w : QueueWorld) : List QueueCall → Option (QueueWorld × List Int)
  | [] => some (w, [])
  | c :: cs =>
    match queue_call w c with
    | none => none
    | some (w1, out) =>
      match queue_calls w1 cs with
      | none => none
      | some (w2, outs) => some (w2, out ++ outs)

/-- The request numbers passed to `add_request` in a sequence of calls. -/
def added : List QueueCall → List Int
  | [] => []
  | QueueCall.add request_num _ :: cs => request_num :: added cs
  | QueueCall.get _ :: cs => added cs

/-- Well-formedness of the queue: `l` lists the nodes of the list from the
head, the last pointer is its last node, and the count is its length. -/
def QueueInv (w : QueueWorld) (l : List Nat) : Prop :=
  isChain request.next w.mem w.queue.requests l = true ∧ l.Nodup ∧
    w.queue.num_requests = l.length ∧ w.queue.last_request = l.getLast?

/-! ## handler_threads_pool.h / handler_threads_pool.c -/

/-- Struct `handler_thread`: format of a single thread structure. -/
structure handler_thread where
  /-- thread handle (a `pthread_t`) -/
  thread : Nat
  /-- id of thread -/
  thr_id : Int
  /-- pointer to next thread, NULL if none -/
  next : Option Nat
deriving DecidableEq

/-- Struct `handler_threads_pool` (without the three shared pointers
`p_mutex`, `p_cond_var` and `requests`, which are only copied into the
parameters of a new thread). -/
structure handler_threads_pool where
  /-- head of linked list of threads -/
  threads : Option Nat
  /-- pointer to last thread -/
  last_thread : Option Nat
  /-- number of threads in pool -/
  num_threads : Int
  /-- maximal thread id used so far -/
  max_thr_id : Int
deriving DecidableEq

/-- What the pool does to threads and to `handler_thread` blocks, as logged:
`create t id` is `pthread_create` giving handle `t` to a thread whose
parameters carry `thread_id = id`. -/
inductive PoolEvent where
  | create (thread : Nat) (thread_id : Int)
  | cancel (thread : Nat)
  | join (thread : Nat)
  | free (a : Nat)
deriving DecidableEq

/-- Everything the pool functions read or write: the heap of
`handler_thread` nodes, the pool struct and the log of thread events. -/
structure PoolWorld where
  mem : Nat → Option handler_thread
  pool : handler_threads_pool
  log : List PoolEvent

/-- Function `init_handler_threads_pool` (handler_threads_pool.c:12-34). -/
def init_handler_threads_pool : PoolWorld :=
  { mem := fun _ => none
    pool := { threads := none, last_thread := none, num_threads := 0, max_thr_id := 0 }
    log := [] }

/-- The list update of `add_handler_thread` (handler_threads_pool.c:73-81),
for the new node at address `a`. -/
def add_handler_thread_link (w : PoolWorld) (a : Nat) : Option PoolWorld :=
  if w.pool.num_threads = 0 then
    some { w with pool := { w.pool with threads := some a, last_thread := some a } }
  else
    match w.pool.last_thread with
    | none => none
    | some l =>
      match w.mem l with
      | none => none
      | some r =>
        some { w with
          mem := store w.mem l (some { r with next := some a })
          pool := { w.pool with last_thread := some a } }

/-- Function `add_handler_thread` (handler_threads_pool.c:37-85).  `m` is
the result of the `malloc` of the thread structure, `mp` the result of the
`malloc` of the parameters block (which the pool never reads back or frees,
so only whether it is `NULL` matters), and `t` the handle that
`pthread_create` stores in the thread structure. -/
def add_handler_thread (w : PoolWorld) (m mp : Option Nat) (t : Nat) : Option PoolWorld :=
  match m with
  | none => none
  | some a =>
    if (w.mem a).isSome then none
    else
      match int_incr w.pool.max_thr_id with
      | none => none
      | some next_id =>
        let thr_id := w.pool.max_thr_id
        match mp with
        | none => none
        | some _ =>
          let w1 : PoolWorld :=
            { mem := store w.mem a (some { thread := t, thr_id := thr_id, next := none })
              pool := { w.pool with max_thr_id := next_id }
              log := w.log ++ [PoolEvent.create t thr_id] }
          match add_handler_thread_link w1 a with
          | none => none
          | some w2 =>
            match int_incr w2.pool.num_threads with
            | none => none
            | some k => some { w2 with pool := { w2.pool with num_threads := k } }

/-- Function `remove_first_handler_thread` (handler_threads_pool.c:88-104):
the new world and the returned pointer. -/
def remove_first_handler_thread (w : PoolWorld) : Option (PoolWorld × Option Nat) :=
  if w.pool.num_threads > 0 then
    match w.pool.threads with
    | none => some (w, none)
    | some a =>
      match w.mem a with
      | none => none
      | some r =>
        some ({ w with
                mem := store w.mem a (some { r with next := none })
                pool := { w.pool with threads := r.next,
                                      num_threads := w.pool.num_threads - 1 } },
              some a)
  else
    some (w, none)

/-- Function `delete_handler_thread` (handler_threads_pool.c:107-120). -/
def delete_handler_thread (w : PoolWorld) : Option PoolWorld :=
  match remove_first_handler_thread w with
  | none => none
  | some (w1, none) => some w1
  | some (w1, some a) =>
    match w1.mem a with
    | none => none
    | some r =>
      some { w1 with
        mem := store w1.mem a none
        log := w1.log ++ [PoolEvent.cancel r.thread, PoolEvent.free a] }

/-- Function `get_handler_threads_number` (handler_threads_pool.c:123-130). -/
def get_handler_threads_number (w : PoolWorld) : Int :=
  w.pool.num_threads

/-- The loop of `delete_handler_threads_pool` (handler_threads_pool.c:146-151),
for at most `fuel` iterations; a failed `assert(a_thread)` has no result. -/
def delete_handler_threads_pool_loop : Nat → PoolWorld → Option PoolWorld
  | 0, w => if w.pool.num_threads > 0 then none else some w
  | fuel + 1, w =>
    if w.pool.num_threads > 0 then
      match remove_first_handler_thread w with
      | none => none
      | some (_, none) => none
      | some (w1, some a) =>
        match w1.mem a with
        | none => none
        | some r =>
          delete_handler_threads_pool_loop fuel
            { w1 with
              mem := store w1.mem a none
              log := w1.log ++ [PoolEvent.join r.thread, PoolEvent.free a] }
    else
      some w

/-- Function `delete_handler_threads_pool` (handler_threads_pool.c:136-152).
Every iteration that does not fail decrements `num_threads`, so
`num_threads` iterations are enough. -/
def delete_handler_threads_pool (w : PoolWorld) : Option PoolWorld :=
  delete_handler_threads_pool_loop w.pool.num_threads.toNat w

/-! ## main.c -/

/-- Number of initial threads used to service requests (main.c:13). -/
def NUM_HANDLER_THREADS : Int := 3

/-- Max number of handler threads (main.c:14). -/
def MAX_NUM_HANDLER_THREADS : Int := 14

/-- Number of requests on the queue warranting creation of new threads
(main.c:17). -/
def HIGH_REQUESTS_WATERMARK : Int := 15

/-- Low watermark (main.c:18). -/
def LOW_REQUESTS_WATERMARK : Int := 3

/-- The two `if` statements of the producer loop (main.c:68-79), on the
values `num_requests` and `num_threads` read at main.c:62-63. -/
def main_resize (w : PoolWorld) (num_requests num_threads : Int) (m mp : Option Nat)
    (t : Nat) : Option PoolWorld :=
  match (if num_requests > HIGH_REQUESTS_WATERMARK ∧ num_threads < MAX_NUM_HANDLER_THREADS
         then add_handler_thread w m mp t else some w) with
  | none => none
  | some w1 =>
    if num_requests < LOW_REQUESTS_WATERMARK ∧ num_threads > NUM_HANDLER_THREADS
    then delete_handler_thread w1 else some w1

/-- What one iteration of the producer loop (main.c:56-87) does to the pool:
`num_requests` is the queue depth returned by `get_requests_number` at
main.c:62 (any value, since the handler threads dequeue concurrently). -/
def main_step (w : PoolWorld) (num_requests : Int) (m mp : Option Nat) (t : Nat) :
    Option PoolWorld :=
  let num_threads := get_handler_threads_number w
  main_resize w num_requests num_threads m mp t

/-- The sizing policy as the specification words it, on queue depth `q` and
pool size `wk`: if `q > HIGH_WATERMARK` (15) and `wk < MAX_WORKERS` (14),
`add()`; else if `q < LOW_WATERMARK` (3) and `wk > MIN_WORKERS` (3),
`removeOldest()`; else no action. -/
def sizing_policy (w : PoolWorld) (q wk : Int) (m mp : Option Nat) (t : Nat) :
    Option PoolWorld :=
  if q > 15 ∧ wk < 14 then
    add_handler_thread w m mp t
  else if q < 3 ∧ wk > 3 then
    delete_handler_thread w
  else
    some w

/-- What the environment supplies to one `add_handler_thread`: the two
`malloc` results and the new thread handle. -/
structure Spawn where
  m : Option Nat
  mp : Option Nat
  t : Nat

/-- The creation of the request-handling threads (main.c:41-53):
`init_handler_threads_pool`, then one `add_handler_thread` per element of
`spawns` (`NUM_HANDLER_THREADS` of them in `main`). -/
def main_create (w : PoolWorld) : List Spawn → Option PoolWorld
  | [] => some w
  | s :: ss =>
    match add_handler_thread w s.m s.mp s.t with
    | none => none
    | some w1 => main_create w1 ss

/-- One observation of the producer loop: the queue depth read and what the
environment would supply to an `add_handler_thread`. -/
structure Observation where
  num_requests : Int
  spawn : Spawn

/-- Consecutive iterations of the producer loop, as far as the pool goes. -/
def main_steps (w : PoolWorld) : List Observation → Option PoolWorld
  | [] => some w
  | o :: os =>
    match main_step w o.num_requests o.spawn.m o.spawn.mp o.spawn.t with
    | none => none
    | some w1 => main_steps w1 os

/-! ## Sequences of pool calls -/

/-- One call on the pool by the producer thread. -/
inductive PoolCall where
  | add (m mp : Option Nat) (t : Nat)
  | delete
  | delete_pool

/-- Perform one call. -/
def pool_call (w : PoolWorld) : PoolCall → Option PoolWorld
  | PoolCall.add m mp t => add_handler_thread w m mp t
  | PoolCall.delete => delete_handler_thread w
  | PoolCall.delete_pool => delete_handler_threads_pool w

/-- Perform a sequence of calls from world `w`. -/
def pool_calls (w : PoolWorld) : List PoolCall → Option PoolWorld
  | [] => some w
  | c :: cs =>
    match pool_call w c with
    | none => none
    | some w1 => pool_calls w1 cs

/-- Number of `add_handler_thread` calls in a sequence. -/
def adds : List PoolCall → Nat
  | [] => 0
  | PoolCall.add _ _ _ :: cs => adds cs + 1
  | _ :: cs => adds cs

/-- The thread ids stored at the addresses `l`. -/
def thr_ids (mem : Nat → Option handler_thread) (l : List Nat) : List Int :=
  l.filterMap (fun a => (mem a).map handler_thread.thr_id)

/-- The ids given to the threads created so far, in creation order. -/
def created_ids : List PoolEvent → List Int
  | [] => []
  | PoolEvent.create _ thread_id :: es => thread_id :: created_ids es
  | _ :: es => created_ids es

/-- The events of removing the nodes `l` one after the other with
`delete_handler_thread`: each is cancelled, then freed. -/
def delete_events (mem : Nat → Option handler_thread) : List Nat → List PoolEvent
  | [] => []
  | a :: l =>
    match mem a with
    | none => delete_events mem l
    | some r => PoolEvent.cancel r.thread :: PoolEvent.free a :: delete_events mem l

/-- Well-formedness of the pool: `l` lists the nodes of the list from the
head, the count is its length, the last pointer is its last node when there
is one, and the ids along the list increase and are below `max_thr_id`. -/
def PoolInv (w : PoolWorld) (l : List Nat) : Prop :=
  isChain handler_thread.next w.mem w.pool.threads l = true ∧ l.Nodup ∧
    w.pool.num_threads = l.length ∧ (l ≠ [] → w.pool.last_thread = l.getLast?) ∧
    (thr_ids w.mem l).Pairwise (· < ·) ∧ ∀ i ∈ thr_ids w.mem l, i < w.pool.max_thr_id

/-! ## Disposal of the pool and of the queue -/

/-- The events of removing the nodes `l` one after the other in the loop of
`delete_handler_threads_pool`: each is joined, then freed. -/
def join_events (mem : Nat → Option handler_thread) : List Nat → List PoolEvent
  | [] => []
  | a :: l =>
    match mem a with
    | none => join_events mem l
    | some r => PoolEvent.join r.thread :: PoolEvent.free a :: join_events mem l

/-- A call of `free` made by `delete_requests_queue`: on the pointer
returned by `get_request`, or on the queue struct itself. -/
inductive Freed where
  | request (p : Option Nat)
  | queue_struct
deriving DecidableEq

/-- The loop of `delete_requests_queue` (requests_queue.c:168-171), for at
most `fuel` iterations: the world when the loop exits and the calls of `free`
made, one per iteration, in order.  No result when the fuel runs out. -/
def delete_requests_queue_loop : Nat → QueueWorld → Option (QueueWorld × List Freed)
  | 0, w => if w.queue.num_requests > 0 then none else some (w, [])
  | fuel + 1, w =>
    if w.queue.num_requests > 0 then
      match get_request w with
      | none => none
      | some (w1, a_request) =>
        match free_request w1 a_request with
        | none => none
        | some w2 =>
          match delete_requests_queue_loop fuel w2 with
          | none => none
          | some (w3, freed) => some (w3, Freed.request a_request :: freed)
    else
      some (w, [])

/-- Function `delete_requests_queue` (requests_queue.c:159-175): the loop,
then `free(queue)`.  The world returned is the one in which the queue struct
is freed; the list is every call of `free`, in order. -/
def delete_requests_queue (w : QueueWorld) : Option (QueueWorld × List Freed) :=
  match delete_requests_queue_loop w.queue.num_requests.toNat w with
  | none => none
  | some (w1, freed) => some (w1, freed ++ [Freed.queue_struct])

/-! ## handler_thread.c -/

/-- Address of the process-wide `request_mutex` of main.c, which every
handler thread gets in its parameters. -/
def request_mutex : Nat := 0

/-- Function `cleanup_free_mutex` (handler_thread.c:16-23): free the mutex,
if the pointer is not `NULL`. -/
def cleanup_free_mutex (a_mutex : Option Nat) (w : QueueWorld) : QueueWorld :=
  match a_mutex with
  | none => w
  | some _ => pthread_mutex_unlock w

/-- Function `handle_request` (handler_thread.c:32-45): an empty counting
loop, which touches nothing outside its own locals. -/
def handle_request (w : QueueWorld) (_a_request : Option Nat) : QueueWorld :=
  w

/-- Model of the first half of `pthread_cond_wait`: the calling thread
releases the mutex as by one `pthread_mutex_unlock` and blocks. -/
def pthread_cond_wait_block (w : QueueWorld) : QueueWorld :=
  { w with depth := w.depth - 1, log := w.log ++ [SyncEvent.wait] }

/-- Model of the second half of `pthread_cond_wait`: the mutex is acquired
again before the call returns, and before any cleanup handler runs when the
thread is cancelled in the wait. -/
def pthread_cond_wait_wake (w : QueueWorld) : QueueWorld :=
  { w with depth := w.depth + 1 }

/-- What the other threads did while this thread did not hold the mutex: the
heap and queue struct they left, the value of `done_creating_requests`, and
whether a cancellation request for this thread is acted upon (looked at only
in `pthread_cond_wait`, the cancellation point of the loop, since the
cancel type is deferred). -/
structure Interference where
  mem : Nat → Option request
  queue : requests_queue
  done_creating_requests : Int
  cancel : Bool

/-- The shared data as the other threads left it; this thread's hold depth
and log are its own. -/
def interfere (w : QueueWorld) (e : Interference) : QueueWorld :=
  { w with mem := e.mem, queue := e.queue }

/-- Where a handler thread is in `handle_requests_loop`. -/
inductive WorkerPc where
  /-- cleanup handler pushed, before the lock of handler_thread.c:79 -/
  | start
  /-- at the top of the `while (1)` loop, handler_thread.c:87 -/
  | top
  /-- between the unlock of line 100 and the lock of line 104 -/
  | handling (a_request : Nat)
  /-- blocked in the `pthread_cond_wait` of line 124 -/
  | waiting
  /-- after the unlock of line 112, in `pthread_exit`, cleanup handler not yet run -/
  | exiting
  /-- cancelled in `pthread_cond_wait`, mutex re-acquired, cleanup handler not yet run -/
  | cancelling
  /-- the cleanup handler has run and the thread is gone -/
  | terminated
deriving DecidableEq

/-- A handler thread: its place in the loop, the world as it sees it (hold
depth and log are this thread's), and the flag `done_creating_requests`. -/
structure WorkerState where
  pc : WorkerPc
  world : QueueWorld
  done_creating_requests : Int

/-- One step of `handle_requests_loop` (handler_thread.c:56-137); `e` is
used by the steps that acquire the mutex from depth 0. -/
def worker_step (s : WorkerState) (e : Interference) : Option WorkerState :=
  match s.pc with
  | WorkerPc.start =>
    some { pc := WorkerPc.top
           world := pthread_mutex_lock (interfere s.world e)
           done_creating_requests := e.done_creating_requests }
  | WorkerPc.top =>
    let r := get_requests_number s.world
    if r.2 > 0 then
      match get_request r.1 with
      | none => none
      | some (w2, none) => some { s with pc := WorkerPc.top, world := w2 }
      | some (w2, some a) =>
        some { s with pc := WorkerPc.handling a, world := pthread_mutex_unlock w2 }
    else if s.done_creating_requests ≠ 0 then
      some { s with pc := WorkerPc.exiting, world := pthread_mutex_unlock r.1 }
    else
      some { s with pc := WorkerPc.waiting, world := pthread_cond_wait_block r.1 }
  | WorkerPc.handling a =>
    match free_request (handle_request s.world (some a)) (some a) with
    | none => none
    | some w1 =>
      some { pc := WorkerPc.top
             world := pthread_mutex_lock (interfere w1 e)
             done_creating_requests := e.done_creating_requests }
  | WorkerPc.waiting =>
    some { pc := if e.cancel then WorkerPc.cancelling else WorkerPc.top
           world := pthread_cond_wait_wake (interfere s.world e)
           done_creating_requests := e.done_creating_requests }
  | WorkerPc.exiting =>
    some { s with pc := WorkerPc.terminated
                  world := cleanup_free_mutex (some request_mutex) s.world }
  | WorkerPc.cancelling =>
    some { s with pc := WorkerPc.terminated
                  world := cleanup_free_mutex (some request_mutex) s.world }
  | WorkerPc.terminated => none

/-- Consecutive steps of a handler thread. -/
def worker_steps (s : WorkerState) : List Interference → Option WorkerState
  | [] => some s
  | e :: es =>
    match worker_step s e with
    | none => none
    | some s1 => worker_steps s1 es

/-- A handler thread that has just been created: it holds nothing. -/
def worker_start (w : QueueWorld) (done_creating_requests : Int) : WorkerState :=
  { pc := WorkerPc.start
    world := { w with depth := 0 }
    done_creating_requests := done_creating_requests }

/-- A trace of 600 queue depths that the handler threads can produce: the
depth grows to 15 over the first 15 items, stays at 15 while one request is
taken for each one added, and is 16 at the last item, when none is taken. -/
def late_backlog_trace : List Observation :=
  (List.range 599).map
      (fun (i : Nat) => Observation.mk (min ((i : Int) + 1) 15) (Spawn.mk none none 0)) ++
    [Observation.mk 16 (Spawn.mk (some 3) (some 13) 103)]

/-- How deep a handler thread holds `request_mutex` at each place of
`handle_requests_loop`. -/
def hold_depth_at : WorkerPc → Nat
  | WorkerPc.start => 0
  | WorkerPc.top => 1
  | WorkerPc.handling _ => 0
  | WorkerPc.waiting => 0
  | WorkerPc.exiting => 0
  | WorkerPc.cancelling => 1
  | WorkerPc.terminated => 0

/-! ## Lemmas on heaps and chains -/

section chain
variable {α : Type} {next : α → Option Nat} {mem : Nat → Option α}

theorem store_same (a : Nat) (v : Option α) : store mem a v a = v := by
  simp [store]

theorem store_other {a x : Nat} (v : Option α) (h : x ≠ a) : store mem a v x = mem x := by
  simp [store, h]

theorem isChain_nil {p : Option Nat} : isChain next mem p [] = true ↔ p = none := by
  simp [isChain]

theorem isChain_cons {p : Option Nat} {b : Nat} {l : List Nat} :
    isChain next mem p (b :: l) = true ↔
      p = some b ∧ ∃ r, mem b = some r ∧ isChain next mem (next r) l = true := by
  simp only [isChain, Bool.and_eq_true, beq_iff_eq]
  cases h : mem b <;> simp

/-- Every node of a chain is allocated. -/
theorem isChain_alloc {p : Option Nat} {l : List Nat}
    (h : isChain next mem p l = true) {x : Nat} (hx : x ∈ l) : (mem x).isSome = true := by
  induction l generalizing p with
  | nil => cases hx
  | cons b l ih =>
    obtain ⟨_, r, hr, hl⟩ := isChain_cons.mp h
    rcases List.mem_cons.mp hx with rfl | hx
    · simp [hr]
    · exact ih hl hx

/-- A chain starting at a given pointer is unique. -/
theorem isChain_unique {p : Option Nat} {l₁ l₂ : List Nat}
    (h₁ : isChain next mem p l₁ = true) (h₂ : isChain next mem p l₂ = true) : l₁ = l₂ := by
  induction l₁ generalizing p l₂ with
  | nil =>
    cases l₂ with
    | nil => rfl
    | cons b l =>
      have := isChain_nil.mp h₁
      have := (isChain_cons.mp h₂).1
      simp_all
  | cons b l ih =>
    cases l₂ with
    | nil =>
      have := isChain_nil.mp h₂
      have := (isChain_cons.mp h₁).1
      simp_all
    | cons c l2 =>
      obtain ⟨hp, r, hr, hl⟩ := isChain_cons.mp h₁
      obtain ⟨hp2, r2, hr2, hl2⟩ := isChain_cons.mp h₂
      have hbc : b = c := by
        rw [hp] at hp2
        exact Option.some.inj hp2
      subst hbc
      rw [hr] at hr2
      cases hr2
      rw [ih hl hl2]

/-- Writing outside a chain does not change it. -/
theorem isChain_store {p : Option Nat} {l : List Nat} {a : Nat} (v : Option α)
    (ha : a ∉ l) (h : isChain next mem p l = true) :
    isChain next (store mem a v) p l = true := by
  induction l generalizing p with
  | nil => simpa [isChain] using h
  | cons b l ih =>
    obtain ⟨hp, r, hr, hl⟩ := isChain_cons.mp h
    have hb : b ≠ a := fun e => ha (by simp [e])
    have hal : a ∉ l := fun e => ha (by simp [e])
    exact isChain_cons.mpr ⟨hp, r, by rw [store_other v hb]; exact hr, ih hal hl⟩

/-- The walk with enough fuel finds the chain. -/
theorem walk_of_isChain {p : Option Nat} {l : List Nat}
    (h : isChain next mem p l = true) (fuel : Nat) (hf : l.length ≤ fuel) :
    walk next mem fuel p = l := by
  induction l generalizing p fuel with
  | nil =>
    have := isChain_nil.mp h
    subst this
    cases fuel <;> rfl
  | cons b l ih =>
    obtain ⟨hp, r, hr, hl⟩ := isChain_cons.mp h
    subst hp
    cases fuel with
    | zero => simp at hf
    | succ fuel =>
      simp only [walk, hr]
      rw [ih hl fuel (by simpa using hf)]

/-- Linking a new last node behind the last node `x` of a chain. -/
theorem isChain_snoc {p : Option Nat} {l : List Nat} {x a : Nat} {ra r' : α}
    (h : isChain next mem p (l ++ [x]) = true) (hnd : (l ++ [x]).Nodup)
    (hax : a ≠ x) (ha : mem a = some ra) (hra : next ra = none) (hr' : next r' = some a) :
    isChain next (store mem x (some r')) p (l ++ [x] ++ [a]) = true := by
  induction l generalizing p with
  | nil =>
    obtain ⟨hp, r, _, _⟩ := isChain_cons.mp h
    refine isChain_cons.mpr ⟨hp, r', store_same x _, ?_⟩
    rw [hr']
    refine isChain_cons.mpr ⟨rfl, ra, ?_, ?_⟩
    · rw [store_other _ hax]; exact ha
    · rw [hra]; exact isChain_nil.mpr rfl
  | cons b l ih =>
    obtain ⟨hp, r, hr, hl⟩ := isChain_cons.mp h
    have hnd2 : (l ++ [x]).Nodup := (List.nodup_cons.mp hnd).2
    have hbx : b ≠ x := by
      intro e
      exact (List.nodup_cons.mp hnd).1 (by simp [e])
    refine isChain_cons.mpr ⟨hp, r, ?_, ih hl hnd2⟩
    rw [store_other _ hbx]; exact hr

end chain

theorem numbers_congr {mem mem2 : Nat → Option request} {l : List Nat}
    (h : ∀ y ∈ l, (mem2 y).map request.number = (mem y).map request.number) :
    numbers mem2 l = numbers mem l := by
  induction l with
  | nil => rfl
  | cons b l ih =>
    have hb := h b (by simp)
    have hl := ih (fun y hy => h y (by simp [hy]))
    simp only [numbers, List.filterMap_cons] at hl ⊢
    rw [hb, hl]

theorem numbers_store {mem : Nat → Option request} {l : List Nat} {a : Nat}
    (v : Option request) (ha : a ∉ l) : numbers (store mem a v) l = numbers mem l := by
  apply numbers_congr
  intro y hy
  have : y ≠ a := fun e => ha (e ▸ hy)
  rw [store_other v this]

theorem numbers_append (mem : Nat → Option request) (l₁ l₂ : List Nat) :
    numbers mem (l₁ ++ l₂) = numbers mem l₁ ++ numbers mem l₂ := by
  simp [numbers, List.filterMap_append]

/-! ## Lemmas on the queue functions -/

theorem queueInv_not_mem {w : QueueWorld} {l : List Nat} (hinv : QueueInv w l) {a : Nat}
    (ha : w.mem a = none) : a ∉ l := by
  intro hmem
  have := isChain_alloc hinv.1 hmem
  simp [ha] at this

/-- Effect of `add_request` on a well-formed queue, for a fresh address and
a count below `INT_MAX`. -/
theorem add_request_spec {w : QueueWorld} {l : List Nat} (hinv : QueueInv w l)
    (n : Int) {a : Nat} (ha : w.mem a = none) (hlt : w.queue.num_requests < INT_MAX) :
    ∃ w2, add_request w n (some a) = some w2 ∧ QueueInv w2 (l ++ [a]) ∧
      numbers w2.mem (l ++ [a]) = numbers w.mem l ++ [n] ∧
      w2.queue.num_requests = w.queue.num_requests + 1 ∧
      w2.depth = w.depth ∧
      w2.log = w.log ++ [SyncEvent.lock, SyncEvent.unlock, SyncEvent.signal] := by
  have hal : a ∉ l := queueInv_not_mem hinv ha
  obtain ⟨hc, hnd, hnum, hlast⟩ := hinv
  rcases List.eq_nil_or_concat l with rfl | ⟨l0, x, rfl⟩
  · have h0 : w.queue.num_requests = 0 := by simpa using hnum
    have hhead : w.queue.requests = none := isChain_nil.mp hc
    have h1 : (0 : Int) < INT_MAX := by decide
    simp only [add_request, ha, Option.isSome_none, Bool.false_eq_true, if_false,
      add_request_link, pthread_mutex_lock, h0, if_true, int_incr, h1,
      pthread_mutex_unlock, pthread_cond_signal, Option.some.injEq, exists_eq_left', QueueInv]
    refine ⟨⟨?_, by simp, by simp, by simp⟩, ?_, trivial, by omega, by simp⟩
    · exact isChain_cons.mpr ⟨rfl, _, store_same a _, isChain_nil.mpr rfl⟩
    · simp [numbers, store_same]
  · rw [List.concat_eq_append] at hal hc hnd hnum hlast ⊢
    have hne : w.queue.num_requests ≠ 0 := by
      rw [hnum]; simp; omega
    have hlx : w.queue.last_request = some x := by
      rw [hlast]; exact List.getLast?_concat l0
    have hxa : x ≠ a := fun e => hal (by simp [e])
    obtain ⟨r, hr⟩ := Option.isSome_iff_exists.mp
      (isChain_alloc hc (show x ∈ l0 ++ [x] by simp))
    have hrs : store w.mem a (some { number := n, next := none }) x = some r := by
      rw [store_other _ hxa]; exact hr
    simp only [add_request, ha, Option.isSome_none, Bool.false_eq_true, if_false,
      add_request_link, pthread_mutex_lock, hne, int_incr, hlt, if_true, hlx, hrs,
      pthread_mutex_unlock, pthread_cond_signal, Option.some.injEq, exists_eq_left', QueueInv]
    have hdis : (l0 ++ [x] ++ [a]).Nodup := by
      rw [List.nodup_append]
      refine ⟨hnd, by simp, ?_⟩
      intro y hy hy2
      have : y = a := by simpa using hy2
      exact hal (this ▸ hy)
    refine ⟨⟨?_, hdis, ?_, ?_⟩, ?_, trivial, by omega, by simp⟩
    · exact isChain_snoc (isChain_store _ hal hc) hnd (Ne.symm hxa) (store_same a _) rfl rfl
    · rw [hnum]; simp; ring
    · exact (List.getLast?_concat (l0 ++ [x])).symm
    · rw [numbers_append]
      congr 1
      · apply numbers_congr
        intro y hy
        by_cases hyx : y = x
        · subst hyx
          rw [store_same, hr]; rfl
        · have hya : y ≠ a := fun e => hal (e ▸ hy)
          rw [store_other _ hyx, store_other _ hya]
      · simp [numbers, store_other _ (Ne.symm hxa), store_same]

/-- When `add_request` has a result, `malloc` returned a fresh address and
the count was below `INT_MAX`. -/
theorem add_request_some {w w2 : QueueWorld} {n : Int} {m : Option Nat}
    (h : add_request w n m = some w2) :
    ∃ a, m = some a ∧ w.mem a = none ∧ w.queue.num_requests < INT_MAX := by
  cases m with
  | none => simp [add_request] at h
  | some a =>
    refine ⟨a, rfl, ?_⟩
    cases ha : w.mem a with
    | some r => simp [add_request, ha] at h
    | none =>
      refine ⟨rfl, ?_⟩
      by_contra hlt
      simp only [add_request, ha, Option.isSome_none, Bool.false_eq_true, if_false] at h
      split at h
      · cases h
      · rename_i w3 h3
        have hn : w3.queue.num_requests = w.queue.num_requests := by
          simp only [add_request_link, pthread_mutex_lock] at h3
          split at h3
          · cases h3; rfl
          · split at h3
            · cases h3
            · split at h3
              · cases h3
              · cases h3; rfl
        simp [int_incr, hn, hlt] at h

/-- Function `get_request` on a queue whose count is not positive. -/
theorem get_request_empty {w : QueueWorld} (h0 : ¬ w.queue.num_requests > 0) :
    get_request w =
      some ({ w with depth := w.depth + 1 - 1,
                     log := w.log ++ [SyncEvent.lock, SyncEvent.unlock] }, none) := by
  simp [get_request, get_request_unlink, pthread_mutex_lock, pthread_mutex_unlock, h0]

/-- Function `get_request` on a well-formed non-empty queue. -/
theorem get_request_cons {w : QueueWorld} {x : Nat} {l : List Nat}
    (hinv : QueueInv w (x :: l)) :
    ∃ r, w.mem x = some r ∧ ∃ w2, get_request w = some (w2, some x) ∧ QueueInv w2 l ∧
      w2.mem = w.mem ∧ w2.queue.requests = r.next ∧
      w2.queue.num_requests = w.queue.num_requests - 1 ∧
      w2.depth = w.depth ∧ w2.log = w.log ++ [SyncEvent.lock, SyncEvent.unlock] := by
  obtain ⟨hc, hnd, hnum, hlast⟩ := hinv
  obtain ⟨hp, r, hr, hl⟩ := isChain_cons.mp hc
  have hpos : w.queue.num_requests > 0 := by
    rw [hnum]; simp
  refine ⟨r, hr, ?_⟩
  by_cases hnext : r.next = none
  · have hl0 : l = [] := by
      cases l with
      | nil => rfl
      | cons b l =>
        have := (isChain_cons.mp hl).1
        rw [hnext] at this
        cases this
    subst hl0
    simp only [get_request, get_request_unlink, pthread_mutex_lock, hpos, if_true, hp, hr,
      hnext, pthread_mutex_unlock, Option.some.injEq, Prod.mk.injEq, and_true,
      exists_eq_left', QueueInv]
    refine ⟨⟨by simp [isChain], by simp, ?_, by simp⟩, trivial, trivial, trivial, by omega,
      by simp⟩
    simp [hnum]
  · have hl0 : l ≠ [] := by
      rintro rfl
      exact hnext (isChain_nil.mp hl)
    simp only [get_request, get_request_unlink, pthread_mutex_lock, hpos, if_true, hp, hr,
      hnext, if_false, pthread_mutex_unlock, Option.some.injEq, Prod.mk.injEq, and_true,
      exists_eq_left', QueueInv]
    refine ⟨⟨hl, (List.nodup_cons.mp hnd).2, ?_, ?_⟩, trivial, trivial, trivial, by omega,
      by simp⟩
    · rw [hnum]; simp
    · rw [hlast]
      obtain ⟨b, l2, rfl⟩ := List.exists_cons_of_ne_nil hl0
      simp

theorem init_requests_queue_inv : QueueInv init_requests_queue [] := by
  simp [QueueInv, init_requests_queue, isChain]

/-- A call of `add_request` that has a result appends the new node. -/
theorem queue_call_add {w0 w1 : QueueWorld} {l0 : List Nat} {n : Int} {m : Option Nat}
    {out : List Int} (hinv : QueueInv w0 l0)
    (h : queue_call w0 (QueueCall.add n m) = some (w1, out)) :
    out = [] ∧ ∃ a, m = some a ∧ QueueInv w1 (l0 ++ [a]) ∧
      numbers w1.mem (l0 ++ [a]) = numbers w0.mem l0 ++ [n] := by
  simp only [queue_call] at h
  split at h
  · cases h
  · rename_i w2 h2
    obtain ⟨a, rfl, ha, hlt⟩ := add_request_some h2
    obtain ⟨w3, h3, hinv3, hnum3, _⟩ := add_request_spec hinv n ha hlt
    rw [h2] at h3
    cases h3
    cases h
    exact ⟨rfl, a, rfl, hinv3, hnum3⟩

/-- A call of `get_request` removes the first node, if there is one, and
returns its number. -/
theorem queue_call_get {w0 w1 : QueueWorld} {l0 : List Nat} {f : Bool}
    {out : List Int} (hinv : QueueInv w0 l0)
    (h : queue_call w0 (QueueCall.get f) = some (w1, out)) :
    QueueInv w1 l0.tail ∧ out = (numbers w0.mem l0).take 1 ∧
      numbers w1.mem l0.tail = (numbers w0.mem l0).drop 1 := by
  simp only [queue_call] at h
  cases l0 with
  | nil =>
    have h0 : ¬ w0.queue.num_requests > 0 := by
      rw [hinv.2.2.1]; simp
    rw [get_request_empty h0] at h
    simp only [free_request, ite_self, carried, Option.some.injEq, Prod.mk.injEq] at h
    obtain ⟨rfl, rfl⟩ := h
    exact ⟨⟨hinv.1, hinv.2.1, hinv.2.2.1, hinv.2.2.2⟩, by simp [numbers], by simp [numbers]⟩
  | cons x l =>
    obtain ⟨r, hr, w2, h2, hinv2, hmem2, _⟩ := get_request_cons hinv
    have hr2 : w2.mem x = some r := by rw [hmem2]; exact hr
    have hxl : x ∉ l := (List.nodup_cons.mp hinv.2.1).1
    rw [h2] at h
    simp only [free_request, hr2, Option.isSome_some, if_true, carried] at h
    have hnums : numbers w0.mem (x :: l) = r.number :: numbers w0.mem l := by
      simp [numbers, hr]
    cases f with
    | false =>
      simp only [Bool.false_eq_true, if_false, Option.some.injEq, Prod.mk.injEq] at h
      obtain ⟨rfl, rfl⟩ := h
      exact ⟨hinv2, by simp [hnums], by simp [hnums, hmem2]⟩
    | true =>
      simp only [if_true, Option.some.injEq, Prod.mk.injEq] at h
      obtain ⟨rfl, rfl⟩ := h
      refine ⟨⟨isChain_store _ hxl hinv2.1, hinv2.2.1, hinv2.2.2.1, hinv2.2.2.2⟩,
        by simp [hnums], ?_⟩
      simp [hnums, numbers_store _ hxl, hmem2]

/-- One call keeps the queue well-formed; what was queued before plus what
the call added is what the call returned plus what is queued after. -/
theorem queue_call_inv {w0 w1 : QueueWorld} {l0 : List Nat} {c : QueueCall} {out : List Int}
    (hinv : QueueInv w0 l0) (h : queue_call w0 c = some (w1, out)) :
    ∃ l1, QueueInv w1 l1 ∧ numbers w0.mem l0 ++ added [c] = out ++ numbers w1.mem l1 := by
  cases c with
  | add n m =>
    obtain ⟨rfl, a, rfl, hinv1, e⟩ := queue_call_add hinv h
    exact ⟨l0 ++ [a], hinv1, by simp [added, e]⟩
  | get f =>
    obtain ⟨hinv1, e1, e2⟩ := queue_call_get hinv h
    refine ⟨l0.tail, hinv1, ?_⟩
    rw [e1, e2]
    simp only [added, List.append_nil]
    exact (List.take_append_drop 1 _).symm

theorem added_append (cs ds : List QueueCall) : added (cs ++ ds) = added cs ++ added ds := by
  induction cs with
  | nil => rfl
  | cons c cs ih =>
    cases c <;> simp [added, ih]

/-- A sequence of calls keeps the queue well-formed and neither loses nor
duplicates nor reorders a request number. -/
theorem queue_calls_inv {cs : List QueueCall} {w0 w : QueueWorld} {l0 : List Nat}
    {outs : List Int} (hinv : QueueInv w0 l0) (h : queue_calls w0 cs = some (w, outs)) :
    ∃ l, QueueInv w l ∧ numbers w0.mem l0 ++ added cs = outs ++ numbers w.mem l := by
  induction cs generalizing w0 l0 outs with
  | nil =>
    simp only [queue_calls, Option.some.injEq, Prod.mk.injEq] at h
    obtain ⟨rfl, rfl⟩ := h
    exact ⟨l0, hinv, by simp [added]⟩
  | cons c cs ih =>
    simp only [queue_calls] at h
    split at h
    · cases h
    · rename_i w1 out h1
      split at h
      · cases h
      · rename_i w2 outs2 h2
        simp only [Option.some.injEq, Prod.mk.injEq] at h
        obtain ⟨rfl, rfl⟩ := h
        obtain ⟨l1, hinv1, e1⟩ := queue_call_inv hinv h1
        obtain ⟨l2, hinv2, e2⟩ := ih hinv1 h2
        refine ⟨l2, hinv2, ?_⟩
        have : added (c :: cs) = added [c] ++ added cs := added_append [c] cs
        rw [this, ← List.append_assoc, e1, List.append_assoc, e2, List.append_assoc]

theorem queue_calls_append {cs ds : List QueueCall} {w0 w : QueueWorld} {outs : List Int}
    (h : queue_calls w0 (cs ++ ds) = some (w, outs)) :
    ∃ w1 o1 o2, queue_calls w0 cs = some (w1, o1) ∧ queue_calls w1 ds = some (w, o2) ∧
      outs = o1 ++ o2 := by
  induction cs generalizing w0 outs with
  | nil => exact ⟨w0, [], outs, rfl, h, rfl⟩
  | cons c cs ih =>
    simp only [List.cons_append, queue_calls] at h
    split at h
    · cases h
    · rename_i w1 out h1
      split at h
      · cases h
      · rename_i w2 outs2 h2
        simp only [Option.some.injEq, Prod.mk.injEq] at h
        obtain ⟨rfl, rfl⟩ := h
        obtain ⟨w3, o1, o2, e1, e2, rfl⟩ := ih h2
        exact ⟨w3, out ++ o1, o2, by simp [queue_calls, h1, e1], e2, by simp⟩

/-- Dequeuing at least as often as there are queued nodes returns exactly
the queued numbers, in queue order. -/
theorem queue_calls_gets {gets : List Bool} {w0 w : QueueWorld} {l0 : List Nat}
    {outs : List Int} (hinv : QueueInv w0 l0)
    (h : queue_calls w0 (gets.map QueueCall.get) = some (w, outs))
    (hlen : l0.length ≤ gets.length) : outs = numbers w0.mem l0 := by
  induction gets generalizing w0 l0 outs with
  | nil =>
    simp only [List.map_nil, queue_calls, Option.some.injEq, Prod.mk.injEq] at h
    have : l0 = [] := List.eq_nil_of_length_eq_zero (by simpa using hlen)
    subst this
    simp [numbers, h.2.symm]
  | cons f gets ih =>
    simp only [List.map_cons, queue_calls] at h
    split at h
    · cases h
    · rename_i w1 out h1
      split at h
      · cases h
      · rename_i w2 outs2 h2
        simp only [Option.some.injEq, Prod.mk.injEq] at h
        obtain ⟨rfl, rfl⟩ := h
        obtain ⟨hinv1, e1, e2⟩ := queue_call_get hinv h1
        have hlen1 : l0.tail.length ≤ gets.length := by
          simp only [List.length_tail, List.length_cons] at hlen ⊢
          omega
        rw [ih hinv1 h2 hlen1, e1, e2]
        exact List.take_append_drop 1 _

/-- Enqueuing only: nothing is returned, and every call appends one node. -/
theorem queue_calls_adds {cs : List QueueCall} {w0 w : QueueWorld} {l0 : List Nat}
    {outs : List Int} (hinv : QueueInv w0 l0)
    (hadd : ∀ c ∈ cs, ∃ n m, c = QueueCall.add n m)
    (h : queue_calls w0 cs = some (w, outs)) :
    outs = [] ∧ ∃ l, QueueInv w l ∧ l.length = l0.length + cs.length ∧
      numbers w.mem l = numbers w0.mem l0 ++ added cs := by
  induction cs generalizing w0 l0 outs with
  | nil =>
    simp only [queue_calls, Option.some.injEq, Prod.mk.injEq] at h
    obtain ⟨rfl, rfl⟩ := h
    exact ⟨rfl, l0, hinv, by simp, by simp [added]⟩
  | cons c cs ih =>
    obtain ⟨n, m, rfl⟩ := hadd c (by simp)
    simp only [queue_calls] at h
    split at h
    · cases h
    · rename_i w1 out h1
      split at h
      · cases h
      · rename_i w2 outs2 h2
        simp only [Option.some.injEq, Prod.mk.injEq] at h
        obtain ⟨rfl, rfl⟩ := h
        obtain ⟨rfl, a, rfl, hinv1, e1⟩ := queue_call_add hinv h1
        obtain ⟨rfl, l, hinv2, hlen2, e2⟩ :=
          ih hinv1 (fun c hc => hadd c (by simp [hc])) h2
        refine ⟨rfl, l, hinv2, ?_, ?_⟩
        · rw [hlen2]; simp; omega
        · rw [e2, e1]; simp [added]

/-- On a well-formed queue `get_request` always has a result, and so has a
call followed by the caller freeing the request. -/
theorem queue_call_get_total {w : QueueWorld} {l : List Nat} (hinv : QueueInv w l)
    (f : Bool) : ∃ w2 out, queue_call w (QueueCall.get f) = some (w2, out) := by
  cases l with
  | nil =>
    have h0 : ¬ w.queue.num_requests > 0 := by
      rw [hinv.2.2.1]; simp
    simp [queue_call, get_request_empty h0, free_request]
  | cons x l =>
    obtain ⟨r, hr, w2, h2, _, hmem2, _⟩ := get_request_cons hinv
    have hr2 : w2.mem x = some r := by rw [hmem2]; exact hr
    cases f <;> simp [queue_call, h2, free_request, hr2]

/-- On a well-formed queue a call of `add_request` has a result as soon as
`malloc` returns a fresh address and the count is below `INT_MAX`. -/
theorem queue_call_add_total {w : QueueWorld} {l : List Nat} (hinv : QueueInv w l)
    (n : Int) {a : Nat} (ha : w.mem a = none) (hlt : w.queue.num_requests < INT_MAX) :
    ∃ w2, queue_call w (QueueCall.add n (some a)) = some (w2, []) := by
  obtain ⟨w2, h2, _⟩ := add_request_spec hinv n ha hlt
  exact ⟨w2, by simp [queue_call, h2]⟩

/-! ## Lemmas on the pool functions -/

theorem thr_ids_congr {mem mem2 : Nat → Option handler_thread} {l : List Nat}
    (h : ∀ y ∈ l, (mem2 y).map handler_thread.thr_id = (mem y).map handler_thread.thr_id) :
    thr_ids mem2 l = thr_ids mem l := by
  induction l with
  | nil => rfl
  | cons b l ih =>
    have hb := h b (by simp)
    have hl := ih (fun y hy => h y (by simp [hy]))
    simp only [thr_ids, List.filterMap_cons] at hl ⊢
    rw [hb, hl]

theorem thr_ids_store {mem : Nat → Option handler_thread} {l : List Nat} {a : Nat}
    (v : Option handler_thread) (ha : a ∉ l) : thr_ids (store mem a v) l = thr_ids mem l := by
  apply thr_ids_congr
  intro y hy
  have : y ≠ a := fun e => ha (e ▸ hy)
  rw [store_other v this]

theorem thr_ids_append (mem : Nat → Option handler_thread) (l₁ l₂ : List Nat) :
    thr_ids mem (l₁ ++ l₂) = thr_ids mem l₁ ++ thr_ids mem l₂ := by
  simp [thr_ids, List.filterMap_append]

theorem poolInv_not_mem {w : PoolWorld} {l : List Nat} (hinv : PoolInv w l) {a : Nat}
    (ha : w.mem a = none) : a ∉ l := by
  intro hmem
  have := isChain_alloc hinv.1 hmem
  simp [ha] at this

theorem init_handler_threads_pool_inv : PoolInv init_handler_threads_pool [] := by
  simp [PoolInv, init_handler_threads_pool, isChain, thr_ids]

/-- Effect of `add_handler_thread` on a well-formed pool, for a fresh
address and counters below `INT_MAX`. -/
theorem add_handler_thread_spec {w : PoolWorld} {l : List Nat} (hinv : PoolInv w l)
    {a : Nat} (p t : Nat) (ha : w.mem a = none) (hid : w.pool.max_thr_id < INT_MAX)
    (hlt : w.pool.num_threads < INT_MAX) :
    ∃ w2, add_handler_thread w (some a) (some p) t = some w2 ∧ PoolInv w2 (l ++ [a]) ∧
      thr_ids w2.mem (l ++ [a]) = thr_ids w.mem l ++ [w.pool.max_thr_id] ∧
      w2.pool.num_threads = w.pool.num_threads + 1 ∧
      w2.pool.max_thr_id = w.pool.max_thr_id + 1 ∧
      w2.log = w.log ++ [PoolEvent.create t w.pool.max_thr_id] ∧
      (w2.mem a).map handler_thread.thr_id = some w.pool.max_thr_id := by
  have hal : a ∉ l := poolInv_not_mem hinv ha
  obtain ⟨hc, hnd, hnum, hlast, hsorted, hbound⟩ := hinv
  have hids : ∀ (mem2 : Nat → Option handler_thread), thr_ids mem2 (l ++ [a]) =
      thr_ids w.mem l ++ [w.pool.max_thr_id] →
      (thr_ids mem2 (l ++ [a])).Pairwise (· < ·) ∧
        ∀ i ∈ thr_ids mem2 (l ++ [a]), i < w.pool.max_thr_id + 1 := by
    intro mem2 e
    rw [e]
    refine ⟨List.pairwise_append.mpr ⟨hsorted, by simp, ?_⟩, ?_⟩
    · intro i hi j hj
      have : j = w.pool.max_thr_id := by simpa using hj
      rw [this]; exact hbound i hi
    · intro i hi
      rcases List.mem_append.mp hi with h | h
      · have := hbound i h; omega
      · have : i = w.pool.max_thr_id := by simpa using h
        omega
  rcases List.eq_nil_or_concat l with rfl | ⟨l0, x, rfl⟩
  · have h0 : w.pool.num_threads = 0 := by simpa using hnum
    have h1 : (0 : Int) < INT_MAX := by decide
    have e : thr_ids (store w.mem a
        (some { thread := t, thr_id := w.pool.max_thr_id, next := none })) ([] ++ [a]) =
        thr_ids w.mem [] ++ [w.pool.max_thr_id] := by
      simp [thr_ids, store_same]
    simp only [add_handler_thread, ha, Option.isSome_none, Bool.false_eq_true, if_false,
      add_handler_thread_link, h0, if_true, int_incr, h1, hid,
      Option.some.injEq, exists_eq_left', PoolInv]
    refine ⟨⟨?_, by simp, by simp, by simp, (hids _ e).1, (hids _ e).2⟩, e, trivial, trivial,
      trivial, by rw [store_same]; rfl⟩
    exact isChain_cons.mpr ⟨rfl, _, store_same a _, isChain_nil.mpr rfl⟩
  · rw [List.concat_eq_append] at hal hc hnd hnum hlast hsorted hbound hids ⊢
    have hne : w.pool.num_threads ≠ 0 := by
      rw [hnum]; simp; omega
    have hlx : w.pool.last_thread = some x := by
      rw [hlast (by simp)]; exact List.getLast?_concat l0
    have hxa : x ≠ a := fun e => hal (by simp [e])
    obtain ⟨r, hr⟩ := Option.isSome_iff_exists.mp
      (isChain_alloc hc (show x ∈ l0 ++ [x] by simp))
    have hrs : store w.mem a
        (some { thread := t, thr_id := w.pool.max_thr_id, next := none }) x = some r := by
      rw [store_other _ hxa]; exact hr
    have e : thr_ids (store (store w.mem a
        (some { thread := t, thr_id := w.pool.max_thr_id, next := none })) x
        (some { thread := r.thread, thr_id := r.thr_id, next := some a })) (l0 ++ [x] ++ [a]) =
        thr_ids w.mem (l0 ++ [x]) ++ [w.pool.max_thr_id] := by
      rw [thr_ids_append]
      congr 1
      · apply thr_ids_congr
        intro y hy
        by_cases hyx : y = x
        · subst hyx
          rw [store_same, hr]; rfl
        · have hya : y ≠ a := fun e => hal (e ▸ hy)
          rw [store_other _ hyx, store_other _ hya]
      · simp [thr_ids, store_other _ (Ne.symm hxa), store_same]
    have hdis : (l0 ++ [x] ++ [a]).Nodup := by
      rw [List.nodup_append]
      refine ⟨hnd, by simp, ?_⟩
      intro y hy hy2
      have : y = a := by simpa using hy2
      exact hal (this ▸ hy)
    simp only [add_handler_thread, ha, Option.isSome_none, Bool.false_eq_true, if_false,
      add_handler_thread_link, hne, int_incr, hlt, hid, if_true, hlx, hrs,
      Option.some.injEq, exists_eq_left', PoolInv]
    refine ⟨⟨?_, hdis, ?_, ?_, (hids _ e).1, (hids _ e).2⟩, e, trivial, trivial, trivial,
      by rw [store_other _ (Ne.symm hxa), store_same]; rfl⟩
    · exact isChain_snoc (isChain_store _ hal hc) hnd (Ne.symm hxa) (store_same a _) rfl rfl
    · rw [hnum]; simp; ring
    · intro _
      exact (List.getLast?_concat (l0 ++ [x])).symm

theorem add_handler_thread_link_num {w w2 : PoolWorld} {a : Nat}
    (h : add_handler_thread_link w a = some w2) :
    w2.pool.num_threads = w.pool.num_threads := by
  simp only [add_handler_thread_link] at h
  split at h
  · cases h; rfl
  · split at h
    · cases h
    · split at h
      · cases h
      · cases h; rfl

/-- When `add_handler_thread` has a result, both `malloc` calls succeeded,
the thread structure is fresh and both counters were below `INT_MAX`. -/
theorem add_handler_thread_some {w w2 : PoolWorld} {m mp : Option Nat} {t : Nat}
    (h : add_handler_thread w m mp t = some w2) :
    ∃ a p, m = some a ∧ mp = some p ∧ w.mem a = none ∧ w.pool.max_thr_id < INT_MAX ∧
      w.pool.num_threads < INT_MAX := by
  cases m with
  | none => simp [add_handler_thread] at h
  | some a =>
    cases ha : w.mem a with
    | some r => simp [add_handler_thread, ha] at h
    | none =>
      simp only [add_handler_thread, ha, Option.isSome_none, Bool.false_eq_true, if_false] at h
      by_cases hid : w.pool.max_thr_id < INT_MAX
      · simp only [int_incr, hid, if_true] at h
        cases mp with
        | none => simp at h
        | some p =>
          refine ⟨a, p, rfl, rfl, ha, hid, ?_⟩
          simp only at h
          split at h
          · cases h
          · rename_i w3 h3
            have hn := add_handler_thread_link_num h3
            simp only at hn
            by_contra hlt
            simp [hn, hlt] at h
      · simp [int_incr, hid] at h

/-- Function `remove_first_handler_thread` when the count is not positive. -/
theorem remove_first_handler_thread_empty {w : PoolWorld} (h0 : ¬ w.pool.num_threads > 0) :
    remove_first_handler_thread w = some (w, none) := by
  simp [remove_first_handler_thread, h0]

/-- Function `remove_first_handler_thread` on a well-formed non-empty pool. -/
theorem remove_first_handler_thread_cons {w : PoolWorld} {x : Nat} {l : List Nat}
    (hinv : PoolInv w (x :: l)) :
    ∃ r, w.mem x = some r ∧ ∃ w2, remove_first_handler_thread w = some (w2, some x) ∧
      PoolInv w2 l ∧ w2.mem = store w.mem x (some { r with next := none }) ∧
      w2.pool.threads = r.next ∧ w2.pool.last_thread = w.pool.last_thread ∧
      w2.pool.num_threads = w.pool.num_threads - 1 ∧
      w2.pool.max_thr_id = w.pool.max_thr_id ∧ w2.log = w.log := by
  obtain ⟨hc, hnd, hnum, hlast, hsorted, hbound⟩ := hinv
  obtain ⟨hp, r, hr, hl⟩ := isChain_cons.mp hc
  have hpos : w.pool.num_threads > 0 := by
    rw [hnum]; simp
  have hxl : x ∉ l := (List.nodup_cons.mp hnd).1
  have hids : thr_ids w.mem (x :: l) = r.thr_id :: thr_ids w.mem l := by
    simp [thr_ids, hr]
  refine ⟨r, hr, ?_⟩
  simp only [remove_first_handler_thread, hpos, if_true, hp, hr, Option.some.injEq,
    Prod.mk.injEq, and_true, exists_eq_left', PoolInv]
  refine ⟨isChain_store _ hxl hl, (List.nodup_cons.mp hnd).2, ?_, ?_, ?_, ?_⟩
  · rw [hnum]; simp
  · intro hl0
    rw [hlast (by simp)]
    obtain ⟨b, l2, rfl⟩ := List.exists_cons_of_ne_nil hl0
    simp
  · rw [thr_ids_store _ hxl]
    rw [hids] at hsorted
    exact (List.pairwise_cons.mp hsorted).2
  · intro i hi
    rw [thr_ids_store _ hxl] at hi
    exact hbound i (by rw [hids]; simp [hi])

theorem created_ids_append (es fs : List PoolEvent) :
    created_ids (es ++ fs) = created_ids es ++ created_ids fs := by
  induction es with
  | nil => rfl
  | cons e es ih =>
    cases e <;> simp [created_ids, ih]

/-- Function `delete_handler_thread` when the count is not positive:
nothing changes. -/
theorem delete_handler_thread_empty {w : PoolWorld} (h0 : ¬ w.pool.num_threads > 0) :
    delete_handler_thread w = some w := by
  simp [delete_handler_thread, remove_first_handler_thread_empty h0]

/-- Function `delete_handler_thread` on a well-formed non-empty pool. -/
theorem delete_handler_thread_cons {w : PoolWorld} {x : Nat} {l : List Nat}
    (hinv : PoolInv w (x :: l)) :
    ∃ r, w.mem x = some r ∧ ∃ w2, delete_handler_thread w = some w2 ∧ PoolInv w2 l ∧
      (∀ y ∈ l, w2.mem y = w.mem y) ∧
      w2.pool.num_threads = w.pool.num_threads - 1 ∧
      w2.pool.max_thr_id = w.pool.max_thr_id ∧
      w2.log = w.log ++ [PoolEvent.cancel r.thread, PoolEvent.free x] := by
  obtain ⟨r, hr, w1, h1, hinv1, hmem1, _, _, hnum1, hmax1, hlog1⟩ :=
    remove_first_handler_thread_cons hinv
  have hxl : x ∉ l := (List.nodup_cons.mp hinv.2.1).1
  have hx1 : w1.mem x = some { r with next := none } := by
    rw [hmem1]; exact store_same x _
  refine ⟨r, hr, ?_⟩
  simp only [delete_handler_thread, h1, hx1, Option.some.injEq, exists_eq_left', PoolInv]
  obtain ⟨hc, hnd, hnum, hlast, hsorted, hbound⟩ := hinv1
  refine ⟨⟨isChain_store _ hxl hc, hnd, hnum, hlast, ?_, ?_⟩, ?_, hnum1, hmax1, by rw [hlog1]⟩
  · rw [thr_ids_store _ hxl]; exact hsorted
  · intro i hi
    rw [thr_ids_store _ hxl] at hi
    exact hbound i hi
  · intro y hy
    have hyx : y ≠ x := fun e => hxl (e ▸ hy)
    rw [store_other _ hyx, hmem1, store_other _ hyx]

/-- The loop of `delete_handler_threads_pool` on a well-formed pool empties
it, when the fuel covers the number of members. -/
theorem delete_handler_threads_pool_loop_spec {w : PoolWorld} {l : List Nat}
    (hinv : PoolInv w l) (fuel : Nat) (hf : l.length ≤ fuel) :
    ∃ w2, delete_handler_threads_pool_loop fuel w = some w2 ∧ PoolInv w2 [] ∧
      w2.pool.num_threads = 0 ∧ w2.pool.max_thr_id = w.pool.max_thr_id ∧
      created_ids w2.log = created_ids w.log := by
  induction l generalizing w fuel with
  | nil =>
    have h0 : ¬ w.pool.num_threads > 0 := by
      rw [hinv.2.2.1]; simp
    have hz : w.pool.num_threads = 0 := by simpa using hinv.2.2.1
    refine ⟨w, ?_, hinv, hz, rfl, rfl⟩
    cases fuel <;> simp [delete_handler_threads_pool_loop, h0]
  | cons x l ih =>
    obtain ⟨r, hr, w1, h1, hinv1, hmem1, _, _, hnum1, hmax1, hlog1⟩ :=
      remove_first_handler_thread_cons hinv
    have hxl : x ∉ l := (List.nodup_cons.mp hinv.2.1).1
    have hx1 : w1.mem x = some { r with next := none } := by
      rw [hmem1]; exact store_same x _
    have hpos : w.pool.num_threads > 0 := by
      rw [hinv.2.2.1]; simp
    cases fuel with
    | zero => simp at hf
    | succ fuel =>
      have hinv2 : PoolInv { w1 with
          mem := store w1.mem x none
          log := w1.log ++ [PoolEvent.join r.thread, PoolEvent.free x] } l := by
        obtain ⟨hc, hnd, hnum, hlast, hsorted, hbound⟩ := hinv1
        refine ⟨isChain_store _ hxl hc, hnd, hnum, hlast, ?_, ?_⟩
        · simp only
          rw [thr_ids_store _ hxl]; exact hsorted
        · intro i hi
          simp only at hi
          rw [thr_ids_store _ hxl] at hi
          exact hbound i hi
      obtain ⟨w2, h2, hinv3, hz, hmax, hlog⟩ := ih hinv2 fuel (by simpa using hf)
      refine ⟨w2, ?_, hinv3, hz, by rw [hmax]; exact hmax1, ?_⟩
      · simp only [delete_handler_threads_pool_loop, hpos, if_true, h1, hx1]
        exact h2
      · rw [hlog]
        simp [hlog1, created_ids_append, created_ids]

theorem delete_handler_threads_pool_spec {w : PoolWorld} {l : List Nat}
    (hinv : PoolInv w l) :
    ∃ w2, delete_handler_threads_pool w = some w2 ∧ PoolInv w2 [] ∧
      w2.pool.num_threads = 0 ∧ w2.pool.max_thr_id = w.pool.max_thr_id ∧
      created_ids w2.log = created_ids w.log := by
  apply delete_handler_threads_pool_loop_spec hinv
  rw [hinv.2.2.1]; simp

/-- The ids `0, 1, ..., k - 1`. -/
theorem created_ids_range_succ (k : Nat) :
    (List.range (k + 1)).map Int.ofNat = (List.range k).map Int.ofNat ++ [(k : Int)] := by
  simp [List.range_succ]

/-- One pool call keeps the pool well-formed, and the ids handed out so far
are `0, 1, ...` in creation order, `max_thr_id` being the next one. -/
theorem pool_call_inv {w0 w1 : PoolWorld} {l0 : List Nat} {c : PoolCall} {k : Nat}
    (hinv : PoolInv w0 l0) (hlog : created_ids w0.log = (List.range k).map Int.ofNat)
    (hmax : w0.pool.max_thr_id = k) (h : pool_call w0 c = some w1) :
    ∃ l1, PoolInv w1 l1 ∧
      created_ids w1.log = (List.range (k + adds [c])).map Int.ofNat ∧
      w1.pool.max_thr_id = ((k + adds [c] : Nat) : Int) := by
  cases c with
  | add m mp t =>
    simp only [pool_call] at h
    obtain ⟨a, p, rfl, rfl, ha, hid, hlt⟩ := add_handler_thread_some h
    obtain ⟨w2, h2, hinv2, _, _, hmax2, hlog2, _⟩ :=
      add_handler_thread_spec hinv p t ha hid hlt
    rw [h] at h2
    cases h2
    refine ⟨l0 ++ [a], hinv2, ?_, ?_⟩
    · simp only [adds, Nat.zero_add]
      rw [hlog2, created_ids_append, hlog, created_ids_range_succ, hmax]
      rfl
    · simp only [adds, Nat.zero_add]
      rw [hmax2, hmax]; simp
  | delete =>
    simp only [pool_call] at h
    cases l0 with
    | nil =>
      have h0 : ¬ w0.pool.num_threads > 0 := by
        rw [hinv.2.2.1]; simp
      rw [delete_handler_thread_empty h0] at h
      cases h
      exact ⟨[], hinv, by simpa [adds] using hlog, by simpa [adds] using hmax⟩
    | cons x l =>
      obtain ⟨r, hr, w2, h2, hinv2, _, _, hmax2, hlog2⟩ := delete_handler_thread_cons hinv
      rw [h] at h2
      cases h2
      refine ⟨l, hinv2, ?_, ?_⟩
      · rw [hlog2, created_ids_append]
        simpa [adds, created_ids] using hlog
      · rw [hmax2]; simpa [adds] using hmax
  | delete_pool =>
    simp only [pool_call] at h
    obtain ⟨w2, h2, hinv2, _, hmax2, hlog2⟩ := delete_handler_threads_pool_spec hinv
    rw [h] at h2
    cases h2
    exact ⟨[], hinv2, by rw [hlog2]; simpa [adds] using hlog,
      by rw [hmax2]; simpa [adds] using hmax⟩

theorem adds_cons (c : PoolCall) (cs : List PoolCall) : adds (c :: cs) = adds [c] + adds cs := by
  cases c <;> simp [adds, Nat.add_comm]

/-- A sequence of pool calls keeps the pool well-formed and hands out the
ids `0, 1, ...` in creation order. -/
theorem pool_calls_inv {cs : List PoolCall} {w0 w : PoolWorld} {l0 : List Nat} {k : Nat}
    (hinv : PoolInv w0 l0) (hlog : created_ids w0.log = (List.range k).map Int.ofNat)
    (hmax : w0.pool.max_thr_id = k) (h : pool_calls w0 cs = some w) :
    ∃ l, PoolInv w l ∧ created_ids w.log = (List.range (k + adds cs)).map Int.ofNat ∧
      w.pool.max_thr_id = ((k + adds cs : Nat) : Int) := by
  induction cs generalizing w0 l0 k with
  | nil =>
    simp only [pool_calls, Option.some.injEq] at h
    subst h
    exact ⟨l0, hinv, by simpa [adds] using hlog, by simpa [adds] using hmax⟩
  | cons c cs ih =>
    simp only [pool_calls] at h
    split at h
    · cases h
    · rename_i w1 h1
      obtain ⟨l1, hinv1, hlog1, hmax1⟩ := pool_call_inv hinv hlog hmax h1
      obtain ⟨l, hinv2, hlog2, hmax2⟩ := ih hinv1 hlog1 hmax1 h
      rw [adds_cons, ← Nat.add_assoc]
      exact ⟨l, hinv2, hlog2, hmax2⟩

/-- Every pool reached from `init_handler_threads_pool` is well-formed. -/
theorem pool_calls_init_inv {cs : List PoolCall} {w : PoolWorld}
    (h : pool_calls init_handler_threads_pool cs = some w) :
    ∃ l, PoolInv w l ∧ created_ids w.log = (List.range (adds cs)).map Int.ofNat ∧
      w.pool.max_thr_id = (adds cs : Int) := by
  have := @pool_calls_inv cs init_handler_threads_pool w [] 0
    init_handler_threads_pool_inv rfl rfl h
  simpa using this

theorem delete_events_congr {mem mem2 : Nat → Option handler_thread} {l : List Nat}
    (h : ∀ y ∈ l, mem2 y = mem y) : delete_events mem2 l = delete_events mem l := by
  induction l with
  | nil => rfl
  | cons b l ih =>
    have hb := h b (by simp)
    have hl := ih (fun y hy => h y (by simp [hy]))
    simp only [delete_events, hb, hl]

/-- Consecutive calls of `delete_handler_thread` on a well-formed pool with
at least `k` members remove the first `k` nodes of the list, in list order. -/
theorem delete_handler_thread_iterate {w : PoolWorld} {l : List Nat} (k : Nat)
    (hinv : PoolInv w l) (hk : k ≤ l.length) :
    ∃ w2, pool_calls w (List.replicate k PoolCall.delete) = some w2 ∧
      PoolInv w2 (l.drop k) ∧ (∀ y ∈ l.drop k, w2.mem y = w.mem y) ∧
      w2.log = w.log ++ delete_events w.mem (l.take k) := by
  induction k generalizing w l with
  | zero => exact ⟨w, rfl, by simpa using hinv, by simp, by simp [delete_events]⟩
  | succ k ih =>
    cases l with
    | nil => simp at hk
    | cons x l =>
      obtain ⟨r, hr, w1, h1, hinv1, hframe1, _, _, hlog1⟩ := delete_handler_thread_cons hinv
      obtain ⟨w2, h2, hinv2, hframe2, hlog2⟩ := ih hinv1 (by simpa using hk)
      refine ⟨w2, ?_, by simpa using hinv2, ?_, ?_⟩
      · simp only [List.replicate_succ, pool_calls, pool_call, h1]
        exact h2
      · intro y hy
        have hy2 : y ∈ List.drop k l := by simpa using hy
        rw [hframe2 y hy2, hframe1 y (List.mem_of_mem_drop hy2)]
      · have hcongr : delete_events w1.mem (List.take k l) =
            delete_events w.mem (List.take k l) :=
          delete_events_congr (fun y hy => hframe1 y (List.mem_of_mem_take hy))
        rw [hlog2, hlog1, hcongr]
        simp [delete_events, hr]

/-- In a well-formed pool all members are allocated, so there are as many
ids as members. -/
theorem thr_ids_length {mem : Nat → Option handler_thread} {p : Option Nat} {l : List Nat}
    (h : isChain handler_thread.next mem p l = true) (l2 : List Nat)
    (hsub : ∀ y ∈ l2, y ∈ l) : (thr_ids mem l2).length = l2.length := by
  induction l2 with
  | nil => rfl
  | cons b l2 ih =>
    obtain ⟨r, hr⟩ := Option.isSome_iff_exists.mp (isChain_alloc h (hsub b (by simp)))
    have := ih (fun y hy => hsub y (by simp [hy]))
    simp only [thr_ids, List.filterMap_cons, hr, Option.map_some', List.length_cons] at this ⊢
    rw [this]

/-! ## Lemmas on the disposal of the pool -/

theorem join_events_congr {mem mem2 : Nat → Option handler_thread} {l : List Nat}
    (h : ∀ y ∈ l, mem2 y = mem y) : join_events mem2 l = join_events mem l := by
  induction l with
  | nil => rfl
  | cons b l ih =>
    have hb := h b (by simp)
    have hl := ih (fun y hy => h y (by simp [hy]))
    simp only [join_events, hb, hl]

/-- The loop of `delete_handler_threads_pool` on a well-formed pool, with
fuel for every member: whatever the fuel, it joins and frees the members in
list order and leaves an empty pool. -/
theorem delete_handler_threads_pool_loop_log {w : PoolWorld} {l : List Nat}
    (hinv : PoolInv w l) :
    ∃ w2, (∀ fuel, l.length ≤ fuel → delete_handler_threads_pool_loop fuel w = some w2) ∧
      w2.log = w.log ++ join_events w.mem l ∧
      w2.pool.threads = none ∧ w2.pool.num_threads = 0 ∧
      (∀ a ∈ l, w2.mem a = none) ∧ (∀ x, x ∉ l → w2.mem x = w.mem x) := by
  induction l generalizing w with
  | nil =>
    have h0 : ¬ w.pool.num_threads > 0 := by
      rw [hinv.2.2.1]; simp
    have hz : w.pool.num_threads = 0 := by simpa using hinv.2.2.1
    refine ⟨w, ?_, by simp [join_events], isChain_nil.mp hinv.1, hz, by simp, fun _ _ => rfl⟩
    intro fuel _
    cases fuel <;> simp [delete_handler_threads_pool_loop, h0]
  | cons x l ih =>
    obtain ⟨r, hr, w1, h1, hinv1, hmem1, _, _, hnum1, hmax1, hlog1⟩ :=
      remove_first_handler_thread_cons hinv
    have hxl : x ∉ l := (List.nodup_cons.mp hinv.2.1).1
    have hx1 : w1.mem x = some { r with next := none } := by
      rw [hmem1]; exact store_same x _
    have hpos : w.pool.num_threads > 0 := by
      rw [hinv.2.2.1]; simp
    have hinv2 : PoolInv { w1 with
        mem := store w1.mem x none
        log := w1.log ++ [PoolEvent.join r.thread, PoolEvent.free x] } l := by
      obtain ⟨hc, hnd, hnum, hlast, hsorted, hbound⟩ := hinv1
      refine ⟨isChain_store _ hxl hc, hnd, hnum, hlast, ?_, ?_⟩
      · simp only
        rw [thr_ids_store _ hxl]; exact hsorted
      · intro i hi
        simp only at hi
        rw [thr_ids_store _ hxl] at hi
        exact hbound i hi
    obtain ⟨w2, h2, hlog2, hhead, hz, hfreed, hframe⟩ := ih hinv2
    have hmem2 : ∀ y, y ≠ x → store w1.mem x none y = w.mem y := by
      intro y hy
      rw [store_other _ hy, hmem1, store_other _ hy]
    refine ⟨w2, ?_, ?_, hhead, hz, ?_, ?_⟩
    · intro fuel hf
      cases fuel with
      | zero => simp at hf
      | succ fuel =>
        simp only [delete_handler_threads_pool_loop, hpos, if_true, h1, hx1]
        exact h2 fuel (by simpa using hf)
    · have hcongr : join_events (store w1.mem x none) l = join_events w.mem l :=
        join_events_congr (fun y hy => hmem2 y (fun e => hxl (e ▸ hy)))
      rw [hlog2]
      simp only [hlog1, hcongr, join_events, hr, List.append_assoc, List.cons_append,
        List.nil_append]
    · intro a ha
      rcases List.mem_cons.mp ha with rfl | ha
      · rw [hframe a hxl]
        exact store_same a _
      · exact hfreed a ha
    · intro y hy
      have hyx : y ≠ x := fun e => hy (by simp [e])
      have hyl : y ∉ l := fun e => hy (by simp [e])
      rw [hframe y hyl]
      exact hmem2 y hyx

/-! ## Lemmas on the disposal of the queue -/

/-- The loop of `delete_requests_queue` on a well-formed queue with node
list `l`: it needs exactly one iteration per node, frees the nodes in list
order and leaves an empty queue. -/
theorem delete_requests_queue_loop_spec {w : QueueWorld} {l : List Nat}
    (hinv : QueueInv w l) :
    ∃ w2,
      (∀ fuel, l.length ≤ fuel →
        delete_requests_queue_loop fuel w =
          some (w2, l.map (fun a => Freed.request (some a)))) ∧
      (∀ fuel, fuel < l.length → delete_requests_queue_loop fuel w = none) ∧
      QueueInv w2 [] ∧ (∀ a ∈ l, w2.mem a = none) ∧ (∀ x, x ∉ l → w2.mem x = w.mem x) := by
  induction l generalizing w with
  | nil =>
    have h0 : ¬ w.queue.num_requests > 0 := by
      rw [hinv.2.2.1]; simp
    refine ⟨w, ?_, by simp, hinv, by simp, fun _ _ => rfl⟩
    intro fuel _
    cases fuel <;> simp [delete_requests_queue_loop, h0]
  | cons x l ih =>
    obtain ⟨r, hr, w1, h1, hinv1, hmem1, _⟩ := get_request_cons hinv
    have hxl : x ∉ l := (List.nodup_cons.mp hinv.2.1).1
    have hr1 : w1.mem x = some r := by rw [hmem1]; exact hr
    have hpos : w.queue.num_requests > 0 := by
      rw [hinv.2.2.1]; simp
    have hinv2 : QueueInv { w1 with mem := store w1.mem x none } l :=
      ⟨isChain_store _ hxl hinv1.1, hinv1.2.1, hinv1.2.2.1, hinv1.2.2.2⟩
    obtain ⟨w2, hloop, hshort, hinv3, hfreed, hframe⟩ := ih hinv2
    refine ⟨w2, ?_, ?_, hinv3, ?_, ?_⟩
    · intro fuel hf
      cases fuel with
      | zero => simp at hf
      | succ fuel =>
        simp only [delete_requests_queue_loop, hpos, if_true, h1, free_request, hr1,
          Option.isSome_some, hloop fuel (by simpa using hf), List.map_cons]
    · intro fuel hf
      cases fuel with
      | zero => simp [delete_requests_queue_loop, hpos]
      | succ fuel =>
        simp only [delete_requests_queue_loop, hpos, if_true, h1, free_request, hr1,
          Option.isSome_some, hshort fuel (by simpa using hf)]
    · intro a ha
      rcases List.mem_cons.mp ha with rfl | ha
      · rw [hframe a hxl]
        exact store_same a _
      · exact hfreed a ha
    · intro y hy
      have hyx : y ≠ x := fun e => hy (by simp [e])
      have hyl : y ∉ l := fun e => hy (by simp [e])
      rw [hframe y hyl]
      simp only
      rw [store_other _ hyx, hmem1]

/-! ## Lemmas on the producer loop -/

/-- Creating threads one after the other keeps the pool well-formed and
adds one member per thread. -/
theorem main_create_inv {spawns : List Spawn} {w w2 : PoolWorld} {l : List Nat}
    (hinv : PoolInv w l) (h : main_create w spawns = some w2) :
    ∃ l2, PoolInv w2 l2 ∧ w2.pool.num_threads = w.pool.num_threads + spawns.length := by
  induction spawns generalizing w l with
  | nil =>
    simp only [main_create, Option.some.injEq] at h
    subst h
    exact ⟨l, hinv, by simp⟩
  | cons s ss ih =>
    simp only [main_create] at h
    split at h
    · cases h
    · rename_i w1 h1
      obtain ⟨a, p, hm, hmp, ha, hid, hlt⟩ := add_handler_thread_some h1
      obtain ⟨w3, h3, hinv3, _, hnum3, _⟩ := add_handler_thread_spec hinv p s.t ha hid hlt
      rw [hm, hmp, h3] at h1
      cases h1
      obtain ⟨l2, hinv2, hnum2⟩ := ih hinv3 h
      refine ⟨l2, hinv2, ?_⟩
      rw [hnum2, hnum3]
      simp only [List.length_cons, Nat.cast_add, Nat.cast_one]
      ring

/-- One iteration of the producer loop keeps the pool well-formed and
either adds one member (deep queue, room left), or removes one (shallow
queue, more than the initial members), or leaves the size alone. -/
theorem main_step_inv {w w2 : PoolWorld} {l : List Nat} {q : Int} {m mp : Option Nat}
    {t : Nat} (hinv : PoolInv w l) (h : main_step w q m mp t = some w2) :
    ∃ l2, PoolInv w2 l2 ∧
      ((q > 15 ∧ w.pool.num_threads < 14 ∧ w2.pool.num_threads = w.pool.num_threads + 1) ∨
       (q < 3 ∧ w.pool.num_threads > 3 ∧ w2.pool.num_threads = w.pool.num_threads - 1) ∨
       (¬ (q > 15 ∧ w.pool.num_threads < 14) ∧ ¬ (q < 3 ∧ w.pool.num_threads > 3) ∧
          w2.pool.num_threads = w.pool.num_threads)) := by
  simp only [main_step, main_resize, get_handler_threads_number, HIGH_REQUESTS_WATERMARK,
    MAX_NUM_HANDLER_THREADS, LOW_REQUESTS_WATERMARK, NUM_HANDLER_THREADS] at h
  by_cases h1 : q > 15 ∧ w.pool.num_threads < 14
  · have h2 : ¬ (q < 3 ∧ w.pool.num_threads > 3) := by omega
    simp only [h1, and_self, if_true, h2, if_false] at h
    split at h
    · cases h
    · rename_i w1 hadd
      cases h
      obtain ⟨a, p, rfl, rfl, ha, hid, hlt⟩ := add_handler_thread_some hadd
      obtain ⟨w3, h3, hinv3, _, hnum3, _⟩ := add_handler_thread_spec hinv p t ha hid hlt
      rw [hadd] at h3
      cases h3
      exact ⟨_, hinv3, Or.inl ⟨h1.1, h1.2, hnum3⟩⟩
  · simp only [h1, if_false] at h
    by_cases h2 : q < 3 ∧ w.pool.num_threads > 3
    · simp only [h2, and_self, if_true] at h
      cases l with
      | nil =>
        have := hinv.2.2.1
        simp only [List.length_nil, Nat.cast_zero] at this
        omega
      | cons x l =>
        obtain ⟨r, _, w3, h3, hinv3, _, hnum3, _⟩ := delete_handler_thread_cons hinv
        rw [h] at h3
        cases h3
        exact ⟨l, hinv3, Or.inr (Or.inl ⟨h2.1, h2.2, hnum3⟩)⟩
    · simp only [h2, if_false, Option.some.injEq] at h
      subst h
      exact ⟨l, hinv, Or.inr (Or.inr ⟨h1, h2, rfl⟩)⟩

/-- The pool size stays between 3 and 14 along the producer loop. -/
theorem main_steps_inv {obs : List Observation} {w w2 : PoolWorld} {l : List Nat}
    (hinv : PoolInv w l) (hlo : 3 ≤ w.pool.num_threads) (hhi : w.pool.num_threads ≤ 14)
    (h : main_steps w obs = some w2) :
    ∃ l2, PoolInv w2 l2 ∧ 3 ≤ w2.pool.num_threads ∧ w2.pool.num_threads ≤ 14 := by
  induction obs generalizing w l with
  | nil =>
    simp only [main_steps, Option.some.injEq] at h
    subst h
    exact ⟨l, hinv, hlo, hhi⟩
  | cons o os ih =>
    simp only [main_steps] at h
    split at h
    · cases h
    · rename_i w1 h1
      obtain ⟨l1, hinv1, hcase⟩ := main_step_inv hinv h1
      exact ih hinv1 (by omega) (by omega) h

/-- An iteration of the producer loop that sees neither watermark crossed
leaves the pool as it is. -/
theorem main_step_noop {w : PoolWorld} {q : Int} (m mp : Option Nat) (t : Nat)
    (h1 : ¬ (q > 15 ∧ w.pool.num_threads < 14)) (h2 : ¬ (q < 3 ∧ w.pool.num_threads > 3)) :
    main_step w q m mp t = some w := by
  simp only [main_step, main_resize, get_handler_threads_number, HIGH_REQUESTS_WATERMARK,
    MAX_NUM_HANDLER_THREADS, LOW_REQUESTS_WATERMARK, NUM_HANDLER_THREADS, h1, h2, if_false]

/-- While the pool has its 3 initial threads and no observed depth exceeds
the high watermark, the producer loop leaves the pool as it is. -/
theorem main_steps_calm {obs : List Observation} {w : PoolWorld}
    (hq : ∀ o ∈ obs, o.num_requests ≤ 15) (h3 : w.pool.num_threads = 3) :
    main_steps w obs = some w := by
  induction obs with
  | nil => rfl
  | cons o os ih =>
    have ho := hq o (by simp)
    simp only [main_steps]
    rw [main_step_noop o.spawn.m o.spawn.mp o.spawn.t (by omega) (by omega)]
    exact ih (fun o2 h2 => hq o2 (by simp [h2]))

theorem main_steps_append {obs obs2 : List Observation} {w w1 : PoolWorld}
    (h : main_steps w obs = some w1) :
    main_steps w (obs ++ obs2) = main_steps w1 obs2 := by
  induction obs generalizing w with
  | nil =>
    simp only [main_steps, Option.some.injEq] at h
    subst h
    rfl
  | cons o os ih =>
    cases hstep : main_step w o.num_requests o.spawn.m o.spawn.mp o.spawn.t with
    | none => simp [main_steps, hstep] at h
    | some w2 =>
      simp only [main_steps, hstep, List.cons_append] at h ⊢
      exact ih h

/-- An iteration of the producer loop that sees more than 15 queued requests
while the pool has fewer than 14 threads is one `add_handler_thread`. -/
theorem main_step_grow {w : PoolWorld} {q : Int} (m mp : Option Nat) (t : Nat)
    (h1 : q > 15) (h2 : w.pool.num_threads < 14) :
    main_step w q m mp t = add_handler_thread w m mp t := by
  have h3 : ¬ (q < 3 ∧ w.pool.num_threads > 3) := by omega
  simp only [main_step, main_resize, get_handler_threads_number, HIGH_REQUESTS_WATERMARK,
    MAX_NUM_HANDLER_THREADS, LOW_REQUESTS_WATERMARK, NUM_HANDLER_THREADS, h1, h2, and_self,
    if_true, h3, if_false]
  cases add_handler_thread w m mp t <;> rfl

/-! ## Lemmas on the handler thread -/

/-- Function `get_request` restores the hold depth it found. -/
theorem get_request_depth {w w2 : QueueWorld} {p : Option Nat}
    (h : get_request w = some (w2, p)) : w2.depth = w.depth := by
  simp only [get_request, get_request_unlink, pthread_mutex_lock] at h
  split at h
  · cases h
  · rename_i w3 p3 h3
    simp only [Option.some.injEq, Prod.mk.injEq] at h
    obtain ⟨rfl, rfl⟩ := h
    split at h3
    · split at h3
      · cases h3
      · split at h3
        · cases h3
        · simp only [Option.some.injEq, Prod.mk.injEq] at h3
          obtain ⟨rfl, _⟩ := h3
          simp [pthread_mutex_unlock]
    · simp only [Option.some.injEq, Prod.mk.injEq] at h3
      obtain ⟨rfl, _⟩ := h3
      simp [pthread_mutex_unlock]

/-- Function `get_requests_number` restores the hold depth it found and
touches neither heap nor queue. -/
theorem get_requests_number_frame (w : QueueWorld) :
    (get_requests_number w).1.depth = w.depth ∧ (get_requests_number w).1.mem = w.mem ∧
      (get_requests_number w).1.queue = w.queue ∧
      (get_requests_number w).2 = w.queue.num_requests := by
  simp [get_requests_number, pthread_mutex_lock, pthread_mutex_unlock]

theorem free_request_depth {w w2 : QueueWorld} {p : Option Nat}
    (h : free_request w p = some w2) : w2.depth = w.depth := by
  cases p with
  | none =>
    simp only [free_request, Option.some.injEq] at h
    subst h
    rfl
  | some a =>
    simp only [free_request] at h
    split at h
    · cases h
      rfl
    · cases h

/-- Every step of a handler thread leads to the hold depth of the place it
reaches. -/
theorem worker_step_depth {s s2 : WorkerState} {e : Interference}
    (hd : s.world.depth = hold_depth_at s.pc) (h : worker_step s e = some s2) :
    s2.world.depth = hold_depth_at s2.pc := by
  obtain ⟨pc, w, d⟩ := s
  cases pc with
  | start =>
    simp only [worker_step, Option.some.injEq] at h
    subst h
    simp only [hold_depth_at] at hd
    simp [pthread_mutex_lock, interfere, hold_depth_at, hd]
  | top =>
    simp only [hold_depth_at] at hd
    have hn := (get_requests_number_frame w).1
    simp only [worker_step] at h
    split at h
    · split at h
      · cases h
      · rename_i w2 hg
        cases h
        have := get_request_depth hg
        simp only [hold_depth_at]
        omega
      · rename_i w2 a hg
        cases h
        have := get_request_depth hg
        simp only [pthread_mutex_unlock, hold_depth_at]
        omega
    · split at h
      · cases h
        simp only [pthread_mutex_unlock, hold_depth_at]
        omega
      · cases h
        simp only [pthread_cond_wait_block, hold_depth_at]
        omega
  | handling a =>
    simp only [hold_depth_at] at hd
    simp only [worker_step, handle_request] at h
    split at h
    · cases h
    · rename_i w1 hf
      cases h
      have := free_request_depth hf
      simp only [pthread_mutex_lock, interfere, hold_depth_at]
      omega
  | waiting =>
    simp only [hold_depth_at] at hd
    simp only [worker_step, Option.some.injEq] at h
    subst h
    cases e.cancel <;> simp [pthread_cond_wait_wake, interfere, hold_depth_at, hd]
  | exiting =>
    simp only [hold_depth_at] at hd
    simp only [worker_step, Option.some.injEq] at h
    subst h
    simp [cleanup_free_mutex, pthread_mutex_unlock, hold_depth_at, hd]
  | cancelling =>
    simp only [hold_depth_at] at hd
    simp only [worker_step, Option.some.injEq] at h
    subst h
    simp [cleanup_free_mutex, pthread_mutex_unlock, hold_depth_at, hd]
  | terminated => simp [worker_step] at h

/-- Along every run of a handler thread the hold depth is the one of the
place reached. -/
theorem worker_steps_depth {es : List Interference} {s s2 : WorkerState}
    (hd : s.world.depth = hold_depth_at s.pc) (h : worker_steps s es = some s2) :
    s2.world.depth = hold_depth_at s2.pc := by
  induction es generalizing s with
  | nil =>
    simp only [worker_steps, Option.some.injEq] at h
    subst h
    exact hd
  | cons e es ih =>
    simp only [worker_steps] at h
    split at h
    · cases h
    · rename_i s1 h1
      exact ih (worker_step_depth hd h1) h

theorem worker_start_depth (w : QueueWorld) (done : Int) :
    (worker_start w done).world.depth = hold_depth_at (worker_start w done).pc := rfl

/-! ## The claims -/

/-- C1 (FIFO, no lost work, sequential model): in every sequence of
`add_request` and `get_request` calls on a queue created by
`init_requests_queue`, the `k`-th non-`NULL` result of `get_request` carries
the number passed to the `k`-th `add_request`; and when the sequence is
enqueues only (`first`) followed by as many dequeues (`gets`), the results
are exactly the enqueued numbers, each once, in enqueue order. -/
theorem fifo_no_lost_work (first : List QueueCall) (gets : List Bool) (w : QueueWorld)
    (outs : List Int)
    (h : queue_calls init_requests_queue (first ++ gets.map QueueCall.get) = some (w, outs)) :
    (∀ (k : Nat) (n : Int), outs[k]? = some n →
        (added (first ++ gets.map QueueCall.get))[k]? = some n) ∧
      ((∀ c ∈ first, ∃ n m, c = QueueCall.add n m) → gets.length = first.length →
        outs = added first) := by
  constructor
  · intro k n hk
    obtain ⟨l, _, e⟩ := queue_calls_inv init_requests_queue_inv h
    have e2 : added (first ++ gets.map QueueCall.get) = outs ++ numbers w.mem l := by
      simpa [numbers] using e
    have hlt : k < outs.length := by
      by_contra hge
      rw [List.getElem?_eq_none (by omega)] at hk
      cases hk
    rw [e2, List.getElem?_append_left hlt]
    exact hk
  · intro hadd hlen
    obtain ⟨w1, o1, o2, h1, h2, rfl⟩ := queue_calls_append h
    obtain ⟨rfl, l, hinv, hl, e⟩ := queue_calls_adds init_requests_queue_inv hadd h1
    have := queue_calls_gets hinv h2 (by rw [hl, hlen]; simp)
    rw [this, e]
    simp [numbers]

/-- C1, witness: two enqueues (numbers 7 and 8) followed by two dequeues
return 7, then 8. -/
theorem fifo_no_lost_work_witness :
    (queue_calls init_requests_queue
        ([QueueCall.add 7 (some 0), QueueCall.add 8 (some 1)] ++
          [true, false].map QueueCall.get)).map Prod.snd = some [7, 8] := by
  cases h : queue_calls init_requests_queue
      ([QueueCall.add 7 (some 0), QueueCall.add 8 (some 1)] ++
        [true, false].map QueueCall.get) with
  | none => exact absurd h (Option.ne_none_iff_isSome.mpr (by decide))
  | some r =>
    obtain ⟨w, outs⟩ := r
    have := (fifo_no_lost_work [QueueCall.add 7 (some 0), QueueCall.add 8 (some 1)]
      [true, false] w outs h).2 (by simp) rfl
    simp [this, added]

/-- C2 (sizing policy): the two independent `if` statements of the producer
loop, on the queue depth `q` and pool size `nt` read before any resize, do
exactly what the if / else-if rule of the specification does (add when
`q > 15` and `nt < 14`, otherwise remove when `q < 3` and `nt > 3`, otherwise
nothing), and the two conditions never hold together, so no step both adds
and removes. -/
theorem main_resize_eq_sizing_policy (w : PoolWorld) (q nt : Int) (m mp : Option Nat)
    (t : Nat) :
    main_resize w q nt m mp t = sizing_policy w q nt m mp t ∧
      ¬ ((q > HIGH_REQUESTS_WATERMARK ∧ nt < MAX_NUM_HANDLER_THREADS) ∧
          (q < LOW_REQUESTS_WATERMARK ∧ nt > NUM_HANDLER_THREADS)) := by
  simp only [main_resize, sizing_policy, HIGH_REQUESTS_WATERMARK, MAX_NUM_HANDLER_THREADS,
    LOW_REQUESTS_WATERMARK, NUM_HANDLER_THREADS]
  constructor
  · by_cases h1 : q > 15 ∧ nt < 14
    · have h2 : ¬ (q < 3 ∧ nt > 3) := by omega
      simp only [h1, and_self, if_true, h2, if_false]
      cases add_handler_thread w m mp t <;> rfl
    · simp only [h1, if_false]
  · omega

/-- C3 (watermark hysteresis bounds): start from the pool of
`NUM_HANDLER_THREADS` = 3 threads that `main` creates and let the producer
loop run on any trace of observed queue depths; then at every step the pool
size changes by at most one, and before and after the step it is at least 3
and at most 14. -/
theorem pool_size_bounds (spawns : List Spawn) (obs : List Observation) (o : Observation)
    (w0 w w2 : PoolWorld)
    (hlen : (spawns.length : Int) = NUM_HANDLER_THREADS)
    (h0 : main_create init_handler_threads_pool spawns = some w0)
    (hreach : main_steps w0 obs = some w)
    (hstep : main_step w o.num_requests o.spawn.m o.spawn.mp o.spawn.t = some w2) :
    |w2.pool.num_threads - w.pool.num_threads| ≤ 1 ∧
      (3 ≤ w.pool.num_threads ∧ w.pool.num_threads ≤ 14) ∧
      (3 ≤ w2.pool.num_threads ∧ w2.pool.num_threads ≤ 14) := by
  obtain ⟨l0, hinv0, hnum0⟩ := main_create_inv init_handler_threads_pool_inv h0
  have h3 : w0.pool.num_threads = 3 := by
    rw [hnum0, hlen]; rfl
  obtain ⟨l, hinv, hlo, hhi⟩ := main_steps_inv hinv0 (by omega) (by omega) hreach
  obtain ⟨l2, _, hcase⟩ := main_step_inv hinv hstep
  refine ⟨?_, ⟨hlo, hhi⟩, by omega, by omega⟩
  rw [abs_le]
  omega

/-- C3, witness: three initial threads, a step that sees 16 queued requests
(the pool grows to 4), then a step that sees 2 (the pool shrinks to 3). -/
theorem pool_size_bounds_witness :
    ∃ w0 w w2,
      main_create init_handler_threads_pool
        [⟨some 0, some 0, 100⟩, ⟨some 1, some 1, 101⟩, ⟨some 2, some 2, 102⟩] = some w0 ∧
      main_steps w0 [⟨16, ⟨some 3, some 3, 103⟩⟩] = some w ∧
      main_step w 2 none none 0 = some w2 ∧
      w.pool.num_threads = 4 ∧ w2.pool.num_threads = 3 ∧
      |w2.pool.num_threads - w.pool.num_threads| ≤ 1 :=
  ⟨_, _, _, rfl, rfl, rfl, rfl, rfl,
    (pool_size_bounds [⟨some 0, some 0, 100⟩, ⟨some 1, some 1, 101⟩, ⟨some 2, some 2, 102⟩]
      [⟨16, ⟨some 3, some 3, 103⟩⟩] ⟨2, ⟨none, none, 0⟩⟩ _ _ _ rfl rfl rfl rfl).1⟩

/-- C4 (FIFO eviction determinism): in a pool reached from
`init_handler_threads_pool` whose membership list is `l`, with at least `k`
members, `k` consecutive `delete_handler_thread` calls succeed and cancel and
free exactly the first `k` nodes of the list, in list order; the ids of
those `k` nodes increase strictly in removal order and each is below the id
of every surviving member, and the survivors are the rest of the list,
untouched. -/
theorem fifo_eviction (cs : List PoolCall) (w : PoolWorld) (l : List Nat) (k : Nat)
    (h : pool_calls init_handler_threads_pool cs = some w)
    (hl : isChain handler_thread.next w.mem w.pool.threads l = true)
    (hk : k ≤ l.length) :
    ∃ w2, pool_calls w (List.replicate k PoolCall.delete) = some w2 ∧
      w2.log = w.log ++ delete_events w.mem (l.take k) ∧
      isChain handler_thread.next w2.mem w2.pool.threads (l.drop k) = true ∧
      thr_ids w2.mem (l.drop k) = thr_ids w.mem (l.drop k) ∧
      (thr_ids w.mem (l.take k)).length = k ∧
      (thr_ids w.mem (l.take k)).Pairwise (· < ·) ∧
      ∀ i ∈ thr_ids w.mem (l.take k), ∀ j ∈ thr_ids w.mem (l.drop k), i < j := by
  obtain ⟨l2, hinv, _, _⟩ := pool_calls_init_inv h
  have hll : l2 = l := isChain_unique hinv.1 hl
  subst hll
  obtain ⟨w2, h2, hinv2, hframe, hlog⟩ := delete_handler_thread_iterate k hinv hk
  have hsorted := hinv.2.2.2.2.1
  rw [← List.take_append_drop k l2, thr_ids_append, List.pairwise_append] at hsorted
  refine ⟨w2, h2, hlog, hinv2.1, thr_ids_congr (fun y hy => by rw [hframe y hy]), ?_,
    hsorted.1, hsorted.2.2⟩
  rw [thr_ids_length hl _ (fun y hy => List.mem_of_mem_take hy)]
  simp [hk]

/-- C4, witness: five threads are created (ids 0 to 4, nodes at addresses
0 to 4) and the first is deleted; three more deletions then cancel and free
the nodes 1, 2, 3, whose ids are 1, 2, 3, and leave the thread with id 4. -/
theorem fifo_eviction_witness :
    ∃ w w2,
      pool_calls init_handler_threads_pool
        [PoolCall.add (some 0) (some 10) 100, PoolCall.add (some 1) (some 11) 101,
         PoolCall.add (some 2) (some 12) 102, PoolCall.add (some 3) (some 13) 103,
         PoolCall.add (some 4) (some 14) 104, PoolCall.delete] = some w ∧
      isChain handler_thread.next w.mem w.pool.threads [1, 2, 3, 4] = true ∧
      pool_calls w (List.replicate 3 PoolCall.delete) = some w2 ∧
      w2.log = w.log ++ [PoolEvent.cancel 101, PoolEvent.free 1, PoolEvent.cancel 102,
        PoolEvent.free 2, PoolEvent.cancel 103, PoolEvent.free 3] ∧
      thr_ids w.mem [1, 2, 3] = [1, 2, 3] ∧ thr_ids w2.mem [4] = [4] := by
  obtain ⟨w2, h2, hlog, _, hids, _⟩ := fifo_eviction
    [PoolCall.add (some 0) (some 10) 100, PoolCall.add (some 1) (some 11) 101,
     PoolCall.add (some 2) (some 12) 102, PoolCall.add (some 3) (some 13) 103,
     PoolCall.add (some 4) (some 14) 104, PoolCall.delete] _ [1, 2, 3, 4] 3 rfl
    (by decide) (by decide)
  exact ⟨_, w2, rfl, by decide, h2, hlog, by decide, hids⟩

/-- C5 (thread ids increase and are never reused): after any sequence of
pool calls from `init_handler_threads_pool`, whatever removals it contains,
the ids given to the threads created so far are `0, 1, 2, ...` in creation
order (so they are pairwise distinct and increase), `max_thr_id` is the
number of threads created, and the next `add_handler_thread` that has a
result stores that number as `thr_id` of the new node.  An add whose id
counter would leave the range of `int` has no result. -/
theorem thread_ids_increasing (cs : List PoolCall) (w : PoolWorld)
    (h : pool_calls init_handler_threads_pool cs = some w) :
    created_ids w.log = (List.range (adds cs)).map Int.ofNat ∧
      (created_ids w.log).Pairwise (· < ·) ∧
      w.pool.max_thr_id = (adds cs : Int) ∧
      ∀ (m mp : Option Nat) (t : Nat) (w2 : PoolWorld),
        add_handler_thread w m mp t = some w2 →
        ∃ a, m = some a ∧ (w2.mem a).map handler_thread.thr_id = some (adds cs : Int) ∧
          w2.log = w.log ++ [PoolEvent.create t (adds cs : Int)] := by
  obtain ⟨l, hinv, hlog, hmax⟩ := pool_calls_init_inv h
  refine ⟨hlog, ?_, hmax, ?_⟩
  · rw [hlog, List.pairwise_map]
    exact (List.pairwise_lt_range _).imp (fun hab => Int.ofNat_lt.mpr hab)
  · intro m mp t w2 hadd
    obtain ⟨a, p, rfl, rfl, ha, hid, hlt⟩ := add_handler_thread_some hadd
    obtain ⟨w3, h3, _, _, _, _, hlog3, hnode⟩ := add_handler_thread_spec hinv p t ha hid hlt
    rw [hadd] at h3
    cases h3
    exact ⟨a, rfl, by rw [hnode, hmax], by rw [hlog3, hmax]⟩

/-- C5, witness: two threads are created, the first is deleted, a third is
created: the ids handed out are 0, 1, 2. -/
theorem thread_ids_increasing_witness :
    ∃ w,
      pool_calls init_handler_threads_pool
        [PoolCall.add (some 0) (some 10) 100, PoolCall.add (some 1) (some 11) 101,
         PoolCall.delete, PoolCall.add (some 0) (some 12) 102] = some w ∧
      created_ids w.log = [0, 1, 2] :=
  ⟨_, rfl, (thread_ids_increasing
    [PoolCall.add (some 0) (some 10) 100, PoolCall.add (some 1) (some 11) 101,
     PoolCall.delete, PoolCall.add (some 0) (some 12) 102] _ rfl).1⟩

/-- C6 (queue count invariant): in every state reached from
`init_requests_queue` by `add_request` and `get_request` calls, the nodes
reached from the head pointer `requests` by following `next` form a list `l`
ending in `NULL` (the walk along `next` finds exactly `l`), and
`num_requests` is the number of these nodes. -/
theorem queue_count_invariant (cs : List QueueCall) (w : QueueWorld) (outs : List Int)
    (h : queue_calls init_requests_queue cs = some (w, outs)) :
    ∃ l, isChain request.next w.mem w.queue.requests l = true ∧
      (∀ fuel, l.length ≤ fuel → walk request.next w.mem fuel w.queue.requests = l) ∧
      w.queue.num_requests = (l.length : Int) := by
  obtain ⟨l, hinv, _⟩ := queue_calls_inv init_requests_queue_inv h
  exact ⟨l, hinv.1, fun fuel hf => walk_of_isChain hinv.1 fuel hf, hinv.2.2.1⟩

/-- C6, witness: after enqueue, enqueue, dequeue (freed), enqueue, the
count is 2 and it is the number of nodes reached from the head. -/
theorem queue_count_invariant_witness :
    ∃ w outs l,
      queue_calls init_requests_queue
        [QueueCall.add 7 (some 0), QueueCall.add 8 (some 1), QueueCall.get true,
         QueueCall.add 9 (some 0)] = some (w, outs) ∧
      w.queue.num_requests = 2 ∧
      isChain request.next w.mem w.queue.requests l = true ∧
      w.queue.num_requests = (l.length : Int) := by
  obtain ⟨l, hchain, _, hnum⟩ := queue_count_invariant
    [QueueCall.add 7 (some 0), QueueCall.add 8 (some 1), QueueCall.get true,
     QueueCall.add 9 (some 0)] _ _ rfl
  exact ⟨_, _, l, rfl, by decide, hchain, hnum⟩

/-- C7 (pool count invariant): in every state reached from
`init_handler_threads_pool` by `add_handler_thread`, `delete_handler_thread`
and `delete_handler_threads_pool` calls, `num_threads` is the number of nodes
reached from the head pointer `threads`; an `add_handler_thread` that has a
result increases it by exactly one; and on a non-empty pool
`remove_first_handler_thread` and `delete_handler_thread` have a result and
decrease it by exactly one. -/
theorem pool_count_invariant (cs : List PoolCall) (w : PoolWorld)
    (h : pool_calls init_handler_threads_pool cs = some w) :
    (∃ l, isChain handler_thread.next w.mem w.pool.threads l = true ∧
        (∀ fuel, l.length ≤ fuel → walk handler_thread.next w.mem fuel w.pool.threads = l) ∧
        w.pool.num_threads = (l.length : Int)) ∧
      (∀ (m mp : Option Nat) (t : Nat) (w2 : PoolWorld),
        add_handler_thread w m mp t = some w2 →
        w2.pool.num_threads = w.pool.num_threads + 1) ∧
      (w.pool.num_threads > 0 →
        (∃ w2 a, remove_first_handler_thread w = some (w2, some a) ∧
          w2.pool.num_threads = w.pool.num_threads - 1) ∧
        (∃ w2, delete_handler_thread w = some w2 ∧
          w2.pool.num_threads = w.pool.num_threads - 1)) := by
  obtain ⟨l, hinv, _, _⟩ := pool_calls_init_inv h
  refine ⟨⟨l, hinv.1, fun fuel hf => walk_of_isChain hinv.1 fuel hf, hinv.2.2.1⟩, ?_, ?_⟩
  · intro m mp t w2 hadd
    obtain ⟨a, p, rfl, rfl, ha, hid, hlt⟩ := add_handler_thread_some hadd
    obtain ⟨w3, h3, _, _, hnum3, _⟩ := add_handler_thread_spec hinv p t ha hid hlt
    rw [hadd] at h3
    cases h3
    exact hnum3
  · intro hpos
    cases l with
    | nil =>
      have := hinv.2.2.1
      simp only [List.length_nil, Nat.cast_zero] at this
      omega
    | cons x l =>
      obtain ⟨_, _, w2, h2, _, _, _, _, hnum2, _⟩ := remove_first_handler_thread_cons hinv
      obtain ⟨_, _, w3, h3, _, _, hnum3, _⟩ := delete_handler_thread_cons hinv
      exact ⟨⟨w2, x, h2, hnum2⟩, ⟨w3, h3, hnum3⟩⟩

/-- C7, witness: after three creations, a deletion, a disposal of the whole
pool and two more creations, the count is 2 and it is the number of nodes
reached from the head. -/
theorem pool_count_invariant_witness :
    ∃ w l,
      pool_calls init_handler_threads_pool
        [PoolCall.add (some 0) (some 10) 100, PoolCall.add (some 1) (some 11) 101,
         PoolCall.add (some 2) (some 12) 102, PoolCall.delete, PoolCall.delete_pool,
         PoolCall.add (some 5) (some 13) 103, PoolCall.add (some 1) (some 14) 104] = some w ∧
      w.pool.num_threads = 2 ∧
      isChain handler_thread.next w.mem w.pool.threads l = true ∧
      w.pool.num_threads = (l.length : Int) := by
  obtain ⟨l, hchain, _, hnum⟩ := (pool_count_invariant
    [PoolCall.add (some 0) (some 10) 100, PoolCall.add (some 1) (some 11) 101,
     PoolCall.add (some 2) (some 12) 102, PoolCall.delete, PoolCall.delete_pool,
     PoolCall.add (some 5) (some 13) 103, PoolCall.add (some 1) (some 14) 104] _ rfl).1
  exact ⟨_, l, rfl, by decide, hchain, hnum⟩

/-- C8 (dequeue): on every queue with `num_requests == 0`, `get_request`
returns `NULL` and leaves the queue struct (head, tail, count) and the heap
unchanged; on every queue with `num_requests > 0` whose head points to a
node, it returns that node, the new head is the node's successor and the
count is one less; and in every state reached from `init_requests_queue`
with `num_requests > 0` the head does point to a node. -/
theorem get_request_effect (w : QueueWorld) :
    (w.queue.num_requests = 0 →
      ∃ w2, get_request w = some (w2, none) ∧ w2.queue = w.queue ∧ w2.mem = w.mem ∧
        w2.depth = w.depth) ∧
      (∀ (a : Nat) (r : request), w.queue.num_requests > 0 → w.queue.requests = some a →
        w.mem a = some r →
        ∃ w2, get_request w = some (w2, some a) ∧ w2.queue.requests = r.next ∧
          w2.queue.num_requests = w.queue.num_requests - 1 ∧ w2.mem = w.mem ∧
          w2.depth = w.depth) ∧
      (∀ (cs : List QueueCall) (outs : List Int),
        queue_calls init_requests_queue cs = some (w, outs) → w.queue.num_requests > 0 →
        ∃ a r, w.queue.requests = some a ∧ w.mem a = some r) := by
  refine ⟨?_, ?_, ?_⟩
  · intro h0
    have hn : ¬ w.queue.num_requests > 0 := by omega
    exact ⟨_, get_request_empty hn, rfl, rfl, by simp⟩
  · intro a r hpos ha hr
    by_cases hnext : r.next = none
    · simp [get_request, get_request_unlink, pthread_mutex_lock, pthread_mutex_unlock, hpos,
        ha, hr, hnext]
    · simp [get_request, get_request_unlink, pthread_mutex_lock, pthread_mutex_unlock, hpos,
        ha, hr, hnext]
  · intro cs outs h hpos
    obtain ⟨l, hinv, _⟩ := queue_calls_inv init_requests_queue_inv h
    cases l with
    | nil =>
      have := hinv.2.2.1
      simp only [List.length_nil, Nat.cast_zero] at this
      omega
    | cons x l =>
      obtain ⟨hp, r, hr, _⟩ := isChain_cons.mp hinv.1
      exact ⟨x, r, hp, hr⟩

/-- C8, witness: on the new queue `get_request` returns `NULL` and changes
nothing in the queue struct. -/
theorem get_request_effect_witness :
    ∃ w2, get_request init_requests_queue = some (w2, none) ∧
      w2.queue = init_requests_queue.queue ∧ w2.mem = init_requests_queue.mem ∧
      w2.depth = init_requests_queue.depth :=
  (get_request_effect init_requests_queue).1 rfl

/-- C9 (removing from an empty pool): on every pool with `num_threads == 0`,
`delete_handler_thread` returns the world it was given: no cancellation is
logged, no block is freed, and `threads`, `last_thread`, `num_threads` and
`max_thr_id` are unchanged. -/
theorem delete_handler_thread_noop (w : PoolWorld) (h0 : w.pool.num_threads = 0) :
    delete_handler_thread w = some w := by
  apply delete_handler_thread_empty
  omega

/-- C9, witness: the pool emptied by deleting its only thread (its
`last_thread` is then a stale pointer) is left as it is by one more
`delete_handler_thread`. -/
theorem delete_handler_thread_noop_witness :
    ∃ w,
      pool_calls init_handler_threads_pool
        [PoolCall.add (some 0) (some 10) 100, PoolCall.delete] = some w ∧
      w.pool.last_thread = some 0 ∧ w.pool.num_threads = 0 ∧
      delete_handler_thread w = some w :=
  ⟨_, rfl, rfl, rfl, delete_handler_thread_noop _ rfl⟩

/-- C10 (enqueue): on every well-formed queue with node list `l`, for every
request number `n`, a fresh address `a` returned by `malloc` and a count
below `INT_MAX`, `add_request` has a result in which the node list is `l`
followed by `a`, the numbers queued are those queued before, in the same
order, followed by `n`, the tail pointer is `a`, `num_requests` is one more,
the calling thread holds the mutex as deep as before, and the
synchronisation calls made are lock, unlock, signal in this order: one
signal, after the unlock. -/
theorem add_request_effect (w : QueueWorld) (l : List Nat) (n : Int) (a : Nat)
    (hinv : QueueInv w l) (ha : w.mem a = none) (hlt : w.queue.num_requests < INT_MAX) :
    ∃ w2, add_request w n (some a) = some w2 ∧
      isChain request.next w2.mem w2.queue.requests (l ++ [a]) = true ∧
      numbers w2.mem (l ++ [a]) = numbers w.mem l ++ [n] ∧
      w2.queue.last_request = some a ∧
      w2.queue.num_requests = w.queue.num_requests + 1 ∧
      w2.depth = w.depth ∧
      w2.log = w.log ++ [SyncEvent.lock, SyncEvent.unlock, SyncEvent.signal] := by
  obtain ⟨w2, h2, hinv2, hnums, hnum, hdepth, hlog⟩ := add_request_spec hinv n ha hlt
  refine ⟨w2, h2, hinv2.1, hnums, ?_, hnum, hdepth, hlog⟩
  rw [hinv2.2.2.2]
  exact List.getLast?_concat l

/-- C10, witness: the queue holding the single request 7 at address 0 (the
state after one `add_request` on the new queue); enqueuing 8 at address 1
gives the numbers 7, 8, the count 2 and one more lock, unlock, signal. -/
theorem add_request_effect_witness :
    add_request init_requests_queue 7 (some 0) =
        some { mem := store (fun _ => none) 0 (some { number := 7, next := none })
               queue := { requests := some 0, last_request := some 0, num_requests := 1 }
               depth := 0
               log := [SyncEvent.lock, SyncEvent.unlock, SyncEvent.signal] } ∧
      ∃ w2,
        add_request
          { mem := store (fun _ => none) 0 (some { number := 7, next := none })
            queue := { requests := some 0, last_request := some 0, num_requests := 1 }
            depth := 0
            log := [SyncEvent.lock, SyncEvent.unlock, SyncEvent.signal] } 8 (some 1) =
          some w2 ∧
        numbers w2.mem [0, 1] = [7, 8] ∧ w2.queue.num_requests = 2 ∧
        w2.log = [SyncEvent.lock, SyncEvent.unlock, SyncEvent.signal,
                  SyncEvent.lock, SyncEvent.unlock, SyncEvent.signal] := by
  refine ⟨rfl, ?_⟩
  obtain ⟨w2, h2, _, hnums, _, hnum, _, hlog⟩ := add_request_effect
    { mem := store (fun _ => none) 0 (some { number := 7, next := none })
      queue := { requests := some 0, last_request := some 0, num_requests := 1 }
      depth := 0
      log := [SyncEvent.lock, SyncEvent.unlock, SyncEvent.signal] } [0] 8 1
    (by unfold QueueInv; decide) rfl (by decide)
  exact ⟨w2, h2, hnums, hnum, hlog⟩

/-- C11 (disposal of the pool): in every pool reached from
`init_handler_threads_pool`, with membership list `l`,
`delete_handler_threads_pool` has a result (the loop ends, with the same
result for any fuel that covers the members); what it logs is, for each
member in list order, a join of its thread followed by the free of its
block; the list order is the creation order (ids increase along it); and it
leaves `num_threads == 0`, a `NULL` head and every former member freed. -/
theorem delete_handler_threads_pool_drains (cs : List PoolCall) (w : PoolWorld)
    (l : List Nat) (h : pool_calls init_handler_threads_pool cs = some w)
    (hl : isChain handler_thread.next w.mem w.pool.threads l = true) :
    ∃ w2, delete_handler_threads_pool w = some w2 ∧
      (∀ fuel, l.length ≤ fuel → delete_handler_threads_pool_loop fuel w = some w2) ∧
      w2.log = w.log ++ join_events w.mem l ∧
      (thr_ids w.mem l).Pairwise (· < ·) ∧
      w2.pool.num_threads = 0 ∧ w2.pool.threads = none ∧
      ∀ a ∈ l, w2.mem a = none := by
  obtain ⟨l2, hinv, _, _⟩ := pool_calls_init_inv h
  have hll : l2 = l := isChain_unique hinv.1 hl
  subst hll
  obtain ⟨w2, hloop, hlog, hhead, hz, hfreed, _⟩ := delete_handler_threads_pool_loop_log hinv
  refine ⟨w2, ?_, hloop, hlog, hinv.2.2.2.2.1, hz, hhead, hfreed⟩
  apply hloop
  rw [hinv.2.2.1]
  simp

/-- C11, witness: three threads are created and the oldest is deleted; the
disposal then joins and frees the nodes 1 and 2 (threads 101 and 102), in
this order, and leaves an empty pool. -/
theorem delete_handler_threads_pool_drains_witness :
    ∃ w w2,
      pool_calls init_handler_threads_pool
        [PoolCall.add (some 0) (some 10) 100, PoolCall.add (some 1) (some 11) 101,
         PoolCall.add (some 2) (some 12) 102, PoolCall.delete] = some w ∧
      delete_handler_threads_pool w = some w2 ∧
      w2.log = w.log ++ [PoolEvent.join 101, PoolEvent.free 1, PoolEvent.join 102,
        PoolEvent.free 2] ∧
      w2.pool.num_threads = 0 ∧ w2.pool.threads = none := by
  obtain ⟨w2, h2, _, hlog, _, hz, hhead, _⟩ := delete_handler_threads_pool_drains
    [PoolCall.add (some 0) (some 10) 100, PoolCall.add (some 1) (some 11) 101,
     PoolCall.add (some 2) (some 12) 102, PoolCall.delete] _ [1, 2] rfl (by decide)
  exact ⟨_, w2, rfl, h2, hlog, hz, hhead⟩

/-- C12 (disposal of the queue): in every state reached from
`init_requests_queue`, with node list `l` from the head, the loop of
`delete_requests_queue` ends after exactly `num_requests` iterations (that
much fuel is enough and any less is not), each iteration frees one remaining
node, in list order, which is the order of enqueuing; when the loop exits
the count is 0, the head is `NULL` and every node of `l` is freed; and the
`free` of the queue struct comes last. -/
theorem delete_requests_queue_drains (cs : List QueueCall) (w : QueueWorld)
    (outs : List Int) (l : List Nat)
    (h : queue_calls init_requests_queue cs = some (w, outs))
    (hl : isChain request.next w.mem w.queue.requests l = true) :
    w.queue.num_requests = (l.length : Int) ∧ outs ++ numbers w.mem l = added cs ∧
    ∃ w2,
      delete_requests_queue w =
        some (w2, l.map (fun a => Freed.request (some a)) ++ [Freed.queue_struct]) ∧
      (∀ fuel, w.queue.num_requests.toNat ≤ fuel →
        delete_requests_queue_loop fuel w =
          some (w2, l.map (fun a => Freed.request (some a)))) ∧
      (∀ fuel, fuel < w.queue.num_requests.toNat →
        delete_requests_queue_loop fuel w = none) ∧
      w2.queue.num_requests = 0 ∧ w2.queue.requests = none ∧
      ∀ a ∈ l, w2.mem a = none := by
  obtain ⟨l2, hinv, hnums⟩ := queue_calls_inv init_requests_queue_inv h
  have hll : l2 = l := isChain_unique hinv.1 hl
  subst hll
  obtain ⟨w2, hloop, hshort, hinv2, hfreed, _⟩ := delete_requests_queue_loop_spec hinv
  have hlen : w.queue.num_requests.toNat = l2.length := by
    rw [hinv.2.2.1]; simp
  refine ⟨hinv.2.2.1, by simpa [numbers] using hnums.symm, w2, ?_, ?_, ?_, ?_,
    isChain_nil.mp hinv2.1, hfreed⟩
  · simp only [delete_requests_queue]
    rw [hloop _ (by rw [hlen])]
  · intro fuel hf
    exact hloop fuel (by rw [← hlen]; exact hf)
  · intro fuel hf
    exact hshort fuel (by rw [← hlen]; exact hf)
  · simpa using hinv2.2.2.1

/-- C12, witness: three requests are enqueued and the first is dequeued; the
disposal then frees the nodes 1 and 2 (numbers 8 and 9), in this order, then
the queue struct. -/
theorem delete_requests_queue_drains_witness :
    ∃ w outs w2,
      queue_calls init_requests_queue
        [QueueCall.add 7 (some 0), QueueCall.add 8 (some 1), QueueCall.add 9 (some 2),
         QueueCall.get true] = some (w, outs) ∧
      numbers w.mem [1, 2] = [8, 9] ∧
      delete_requests_queue w =
        some (w2, [Freed.request (some 1), Freed.request (some 2), Freed.queue_struct]) ∧
      w2.queue.num_requests = 0 := by
  obtain ⟨_, _, w2, h2, _, _, hz, _⟩ := delete_requests_queue_drains
    [QueueCall.add 7 (some 0), QueueCall.add 8 (some 1), QueueCall.add 9 (some 2),
     QueueCall.get true] _ _ [1, 2] rfl (by decide)
  exact ⟨_, _, w2, rfl, by decide, h2, hz⟩

/-- C13, as stated, fails: in the reference scenario (3 initial threads,
600 produced items) let the observed queue depths be `late_backlog_trace`:
1, 2, ..., 15, then 15 until the last item, where the depth read is 16.  The
producer loop then ends with 4 threads in the pool, not 3, and
`delete_handler_threads_pool` afterwards leaves 0, not 3. -/
theorem final_pool_size_counterexample :
    late_backlog_trace.length = 600 ∧
    ∃ w0 w w2,
      main_create init_handler_threads_pool
        [Spawn.mk (some 0) (some 10) 100, Spawn.mk (some 1) (some 11) 101,
         Spawn.mk (some 2) (some 12) 102] = some w0 ∧
      main_steps w0 late_backlog_trace = some w ∧
      w.pool.num_threads = 4 ∧ w.pool.num_threads ≠ 3 ∧
      delete_handler_threads_pool w = some w2 ∧
      w2.pool.num_threads = 0 ∧ w2.pool.num_threads ≠ 3 := by
  refine ⟨by
    rw [late_backlog_trace, List.length_append, List.length_map, List.length_range]
    rfl, ?_⟩
  obtain ⟨w0, h0, hfresh, hmax⟩ : ∃ w0,
      main_create init_handler_threads_pool
        [Spawn.mk (some 0) (some 10) 100, Spawn.mk (some 1) (some 11) 101,
         Spawn.mk (some 2) (some 12) 102] = some w0 ∧
      w0.mem 3 = none ∧ w0.pool.max_thr_id < INT_MAX := ⟨_, rfl, by decide, by decide⟩
  obtain ⟨l0, hinv0, hnum0⟩ := main_create_inv init_handler_threads_pool_inv h0
  have h3 : w0.pool.num_threads = 3 := by
    rw [hnum0]; rfl
  have hcalm : main_steps w0 ((List.range 599).map
      (fun (i : Nat) => Observation.mk (min ((i : Int) + 1) 15) (Spawn.mk none none 0))) = some w0 := by
    apply main_steps_calm _ h3
    intro o ho
    obtain ⟨i, _, rfl⟩ := List.mem_map.mp ho
    exact min_le_right _ _
  obtain ⟨w, hadd, hinv, _, hnum, _⟩ :=
    add_handler_thread_spec hinv0 13 103 hfresh hmax (by rw [h3]; decide)
  obtain ⟨w2, hdel, _, hz, _⟩ := delete_handler_threads_pool_spec hinv
  have h4 : w.pool.num_threads = 4 := by omega
  refine ⟨w0, w, w2, h0, ?_, h4, by omega, hdel, hz, by omega⟩
  rw [late_backlog_trace, main_steps_append hcalm]
  simp only [main_steps]
  rw [main_step_grow _ _ _ (by decide) (by omega), hadd]

/-- C13, amended: in the reference scenario (3 initial threads, 600
produced items), for every trace of observed queue depths the pool holds
between 3 and 14 threads when the producer loop ends, exactly 3 when no
observed depth exceeded the high watermark 15; and
`delete_handler_threads_pool` then leaves 0 threads. -/
theorem final_pool_size (spawns : List Spawn) (obs : List Observation) (w0 w : PoolWorld)
    (hs : (spawns.length : Int) = NUM_HANDLER_THREADS) (_ho : obs.length = 600)
    (h0 : main_create init_handler_threads_pool spawns = some w0)
    (h : main_steps w0 obs = some w) :
    (3 ≤ w.pool.num_threads ∧ w.pool.num_threads ≤ 14) ∧
      ((∀ o ∈ obs, o.num_requests ≤ 15) → w.pool.num_threads = 3) ∧
      ∃ w2, delete_handler_threads_pool w = some w2 ∧ w2.pool.num_threads = 0 := by
  obtain ⟨l0, hinv0, hnum0⟩ := main_create_inv init_handler_threads_pool_inv h0
  have h3 : w0.pool.num_threads = 3 := by
    rw [hnum0, hs]; rfl
  obtain ⟨l, hinv, hlo, hhi⟩ := main_steps_inv hinv0 (by omega) (by omega) h
  obtain ⟨w2, hdel, _, hz, _⟩ := delete_handler_threads_pool_spec hinv
  refine ⟨⟨hlo, hhi⟩, ?_, w2, hdel, hz⟩
  intro hq
  rw [main_steps_calm hq h3] at h
  cases h
  exact h3

/-- C13 amended, witness: with 3 initial threads and 600 observed depths of
5 the pool still has 3 threads when the producer loop ends, and 0 after
`delete_handler_threads_pool`. -/
theorem final_pool_size_witness :
    ∃ w0,
      main_create init_handler_threads_pool
        [Spawn.mk (some 0) (some 10) 100, Spawn.mk (some 1) (some 11) 101,
         Spawn.mk (some 2) (some 12) 102] = some w0 ∧
      main_steps w0 (List.replicate 600 (Observation.mk 5 (Spawn.mk none none 0))) = some w0 ∧
      w0.pool.num_threads = 3 ∧
      ∃ w2, delete_handler_threads_pool w0 = some w2 ∧ w2.pool.num_threads = 0 := by
  obtain ⟨w0, h0, h3⟩ : ∃ w0,
      main_create init_handler_threads_pool
        [Spawn.mk (some 0) (some 10) 100, Spawn.mk (some 1) (some 11) 101,
         Spawn.mk (some 2) (some 12) 102] = some w0 ∧
      w0.pool.num_threads = 3 := ⟨_, rfl, by decide⟩
  have hcalm : main_steps w0 (List.replicate 600 (Observation.mk 5 (Spawn.mk none none 0))) =
      some w0 := by
    apply main_steps_calm _ h3
    intro o ho
    rw [List.eq_of_mem_replicate ho]
    decide
  obtain ⟨_, _, hdrain⟩ := final_pool_size
    [Spawn.mk (some 0) (some 10) 100, Spawn.mk (some 1) (some 11) 101,
     Spawn.mk (some 2) (some 12) 102]
    (List.replicate 600 (Observation.mk 5 (Spawn.mk none none 0))) w0 w0 rfl
    (List.length_replicate _ _) h0 hcalm
  exact ⟨w0, h0, hcalm, h3, hdrain⟩

/-- C15 (a handler thread never terminates holding the queue lock): along
every run of `handle_requests_loop` from a thread that holds nothing, a
terminated thread holds the mutex 0 deep; on the normal exit path (queue
empty, flag set, lock already released) the cleanup handler leads to
termination and changes neither the hold depth (0) nor heap nor queue; a
thread cancelled in the condition wait has the mutex back (depth 1) when the
cleanup handler starts and depth 0 when it has run; and a thread terminates
only from one of these two places. -/
theorem worker_terminates_unlocked (w : QueueWorld) (done : Int) (es : List Interference)
    (s : WorkerState) (h : worker_steps (worker_start w done) es = some s) :
    (s.pc = WorkerPc.terminated → s.world.depth = 0) ∧
      (s.pc = WorkerPc.exiting →
        s.world.depth = 0 ∧
        ∀ e, ∃ s2, worker_step s e = some s2 ∧ s2.pc = WorkerPc.terminated ∧
          s2.world.depth = s.world.depth ∧ s2.world.mem = s.world.mem ∧
          s2.world.queue = s.world.queue) ∧
      (s.pc = WorkerPc.cancelling →
        s.world.depth = 1 ∧
        ∀ e, ∃ s2, worker_step s e = some s2 ∧ s2.pc = WorkerPc.terminated ∧
          s2.world.depth = 0) ∧
      (∀ e s2, worker_step s e = some s2 → s2.pc = WorkerPc.terminated →
        s.pc = WorkerPc.exiting ∨ s.pc = WorkerPc.cancelling) := by
  have hd := worker_steps_depth (worker_start_depth w done) h
  obtain ⟨pc, w1, d⟩ := s
  simp only at hd ⊢
  refine ⟨?_, ?_, ?_, ?_⟩
  · rintro rfl
    exact hd
  · rintro rfl
    simp only [hold_depth_at] at hd
    refine ⟨hd, fun e => ⟨_, rfl, rfl, ?_, rfl, rfl⟩⟩
    simp [cleanup_free_mutex, pthread_mutex_unlock, hd]
  · rintro rfl
    simp only [hold_depth_at] at hd
    refine ⟨hd, fun e => ⟨_, rfl, rfl, ?_⟩⟩
    simp [cleanup_free_mutex, pthread_mutex_unlock, hd]
  · intro e s2 hstep hterm
    cases pc with
    | start =>
      simp only [worker_step, Option.some.injEq] at hstep
      subst hstep
      cases hterm
    | top =>
      simp only [worker_step] at hstep
      split at hstep
      · split at hstep
        · cases hstep
        · cases hstep
          cases hterm
        · cases hstep
          cases hterm
      · split at hstep
        · cases hstep
          cases hterm
        · cases hstep
          cases hterm
    | handling a =>
      simp only [worker_step] at hstep
      split at hstep
      · cases hstep
      · cases hstep
        cases hterm
    | waiting =>
      simp only [worker_step, Option.some.injEq] at hstep
      subst hstep
      simp only at hterm
      split at hterm <;> cases hterm
    | exiting => exact Or.inl rfl
    | cancelling => exact Or.inr rfl
    | terminated => simp [worker_step] at hstep

/-- C15, witness: a thread that starts with the flag set on the new queue
locks, finds no request, unlocks and exits, and its cleanup handler runs: it
is terminated and holds nothing; a thread that waits and is cancelled in the
wait is terminated and holds nothing either. -/
theorem worker_terminates_unlocked_witness :
    (∃ s, worker_steps (worker_start init_requests_queue 1)
        [⟨fun _ => none, init_requests_queue.queue, 1, false⟩,
         ⟨fun _ => none, init_requests_queue.queue, 1, false⟩,
         ⟨fun _ => none, init_requests_queue.queue, 1, false⟩] = some s ∧
      s.pc = WorkerPc.terminated ∧ s.world.depth = 0) ∧
    (∃ s, worker_steps (worker_start init_requests_queue 0)
        [⟨fun _ => none, init_requests_queue.queue, 0, false⟩,
         ⟨fun _ => none, init_requests_queue.queue, 0, false⟩,
         ⟨fun _ => none, init_requests_queue.queue, 0, true⟩,
         ⟨fun _ => none, init_requests_queue.queue, 0, false⟩] = some s ∧
      s.pc = WorkerPc.terminated ∧ s.world.depth = 0) :=
  ⟨⟨_, rfl, rfl,
      (worker_terminates_unlocked init_requests_queue 1
        [⟨fun _ => none, init_requests_queue.queue, 1, false⟩,
         ⟨fun _ => none, init_requests_queue.queue, 1, false⟩,
         ⟨fun _ => none, init_requests_queue.queue, 1, false⟩] _ rfl).1 rfl⟩,
    ⟨_, rfl, rfl,
      (worker_terminates_unlocked init_requests_queue 0
        [⟨fun _ => none, init_requests_queue.queue, 0, false⟩,
         ⟨fun _ => none, init_requests_queue.queue, 0, false⟩,
         ⟨fun _ => none, init_requests_queue.queue, 0, true⟩,
         ⟨fun _ => none, init_requests_queue.queue, 0, false⟩] _ rfl).1 rfl⟩⟩

/-- C16 (step rule of a handler thread): at the top of the loop, on a
well-formed queue with node list `l`, the step always has a result, and
(i) when the count is positive it dequeues the head node `a` (the count
drops by one, the rest of the list stays queued), releases one level of the
lock and goes on to handle `a`, and the step after that frees `a`, takes the
lock again and is back at the top; (ii) when the count is 0 and the flag is
0 it waits, the queue untouched; (iii) when the count is 0 and the flag is
set it exits; and it exits only on count 0 with the flag set, and waits only
on count 0 with the flag clear. -/
theorem worker_step_rule (s : WorkerState) (l : List Nat) (e : Interference)
    (hpc : s.pc = WorkerPc.top) (hinv : QueueInv s.world l) :
    ∃ s2, worker_step s e = some s2 ∧
      (s.world.queue.num_requests > 0 →
        ∃ a l2, l = a :: l2 ∧ s.world.queue.requests = some a ∧
          s2.pc = WorkerPc.handling a ∧ QueueInv s2.world l2 ∧
          s2.world.queue.num_requests = s.world.queue.num_requests - 1 ∧
          s2.world.depth = s.world.depth - 1 ∧
          ∀ e2, ∃ w3, free_request s2.world (some a) = some w3 ∧ w3.mem a = none ∧
            worker_step s2 e2 =
              some { pc := WorkerPc.top
                     world := pthread_mutex_lock (interfere w3 e2)
                     done_creating_requests := e2.done_creating_requests }) ∧
      (s.world.queue.num_requests = 0 → s.done_creating_requests = 0 →
        s2.pc = WorkerPc.waiting ∧ s2.world.queue = s.world.queue ∧
          s2.world.mem = s.world.mem) ∧
      (s.world.queue.num_requests = 0 → s.done_creating_requests ≠ 0 →
        s2.pc = WorkerPc.exiting ∧ s2.world.queue = s.world.queue ∧
          s2.world.mem = s.world.mem) ∧
      (s2.pc = WorkerPc.exiting →
        s.world.queue.num_requests = 0 ∧ s.done_creating_requests ≠ 0) ∧
      (s2.pc = WorkerPc.waiting →
        s.world.queue.num_requests = 0 ∧ s.done_creating_requests = 0) := by
  obtain ⟨pc, w, d⟩ := s
  simp only at hpc hinv ⊢
  subst hpc
  obtain ⟨hfd, hfm, hfq, hfn⟩ := get_requests_number_frame w
  have hinv1 : QueueInv (get_requests_number w).1 l := by
    obtain ⟨hc, hnd, hnum, hlast⟩ := hinv
    exact ⟨by rw [hfm, hfq]; exact hc, hnd, by rw [hfq]; exact hnum, by rw [hfq]; exact hlast⟩
  cases l with
  | nil =>
    have hz : w.queue.num_requests = 0 := by simpa using hinv.2.2.1
    have hn : ¬ (get_requests_number w).2 > 0 := by rw [hfn, hz]; decide
    by_cases hdone : d = 0
    · have hstep : worker_step { pc := WorkerPc.top, world := w, done_creating_requests := d } e =
          some { pc := WorkerPc.waiting
                 world := pthread_cond_wait_block (get_requests_number w).1
                 done_creating_requests := d } := by
        simp only [worker_step, hn, if_false, hdone, ne_eq, not_true_eq_false]
      refine ⟨_, hstep, ?_, ?_, ?_, ?_, ?_⟩
      · intro hpos; omega
      · intro _ _
        exact ⟨rfl, by simp [pthread_cond_wait_block, hfq], by simp [pthread_cond_wait_block, hfm]⟩
      · intro _ hne
        exact absurd hdone hne
      · intro hx; cases hx
      · intro _
        exact ⟨hz, hdone⟩
    · have hstep : worker_step { pc := WorkerPc.top, world := w, done_creating_requests := d } e =
          some { pc := WorkerPc.exiting
                 world := pthread_mutex_unlock (get_requests_number w).1
                 done_creating_requests := d } := by
        simp only [worker_step, hn, if_false, ne_eq, hdone, not_false_eq_true, if_true]
      refine ⟨_, hstep, ?_, ?_, ?_, ?_, ?_⟩
      · intro hpos; omega
      · intro _ h0
        exact absurd h0 hdone
      · intro _ _
        exact ⟨rfl, by simp [pthread_mutex_unlock, hfq], by simp [pthread_mutex_unlock, hfm]⟩
      · intro _
        exact ⟨hz, hdone⟩
      · intro hx; cases hx
  | cons a l2 =>
    have hpos : w.queue.num_requests > 0 := by
      rw [hinv.2.2.1]; simp
    have hp : (get_requests_number w).2 > 0 := by rw [hfn]; exact hpos
    obtain ⟨r, hr, w2, hg, hinv2, hmem2, _, hnum2, hdepth2, _⟩ := get_request_cons hinv1
    have hhead : w.queue.requests = some a := (isChain_cons.mp hinv.1).1
    have hal : a ∉ l2 := (List.nodup_cons.mp hinv.2.1).1
    have hra : (pthread_mutex_unlock w2).mem a = some r := by
      simp only [pthread_mutex_unlock]
      rw [hmem2]; exact hr
    have hstep : worker_step { pc := WorkerPc.top, world := w, done_creating_requests := d } e =
        some { pc := WorkerPc.handling a
               world := pthread_mutex_unlock w2
               done_creating_requests := d } := by
      simp only [worker_step, hp, if_true, hg]
    refine ⟨_, hstep, ?_, ?_, ?_, ?_, ?_⟩
    · intro _
      refine ⟨a, l2, rfl, hhead, rfl, ?_, ?_, ?_, ?_⟩
      · exact ⟨hinv2.1, hinv2.2.1, hinv2.2.2.1, hinv2.2.2.2⟩
      · simp only [pthread_mutex_unlock]
        rw [hnum2, hfq]
      · simp only [pthread_mutex_unlock]
        rw [hdepth2, hfd]
      · intro e2
        have hfree : free_request (pthread_mutex_unlock w2) (some a) =
            some { pthread_mutex_unlock w2 with
                   mem := store (pthread_mutex_unlock w2).mem a none } := by
          simp only [free_request, hra, Option.isSome_some, if_true]
        refine ⟨_, hfree, ?_, ?_⟩
        · exact store_same a _
        · simp only [worker_step, handle_request, free_request, hra, Option.isSome_some,
            if_true]
    · intro h0; omega
    · intro h0; omega
    · intro hx; cases hx
    · intro hx; cases hx

/-- C16, witness: at the top of the loop with the single request 7 queued at
address 0 the thread goes on to handle the node 0. -/
theorem worker_step_rule_witness :
    ∃ s2,
      worker_step
        { pc := WorkerPc.top
          world :=
            { mem := store (fun _ => none) 0 (some { number := 7, next := none })
              queue := { requests := some 0, last_request := some 0, num_requests := 1 }
              depth := 1
              log := [] }
          done_creating_requests := 0 }
        ⟨fun _ => none, init_requests_queue.queue, 0, false⟩ = some s2 ∧
      s2.pc = WorkerPc.handling 0 ∧ s2.world.queue.num_requests = 0 ∧ s2.world.depth = 0 := by
  obtain ⟨s2, h2, hpos, _⟩ := worker_step_rule
    { pc := WorkerPc.top
      world :=
        { mem := store (fun _ => none) 0 (some { number := 7, next := none })
          queue := { requests := some 0, last_request := some 0, num_requests := 1 }
          depth := 1
          log := [] }
      done_creating_requests := 0 } [0]
    ⟨fun _ => none, init_requests_queue.queue, 0, false⟩ rfl (by unfold QueueInv; decide)
  obtain ⟨a, l2, hl, _, hpc, _, hnum, hdepth, _⟩ := hpos (by decide)
  have ha : a = 0 := by
    have := (List.cons.inj hl).1
    exact this.symm
  subst ha
  exact ⟨s2, h2, hpc, hnum, hdepth⟩

/-- C17 (lock depth in the loop of a handler thread): along every run from
a thread that holds nothing, the hold depth is the one of the place reached:
1 at the top of the loop, where `get_requests_number` and `get_request`
return at the depth they found (1), and where a step into the condition wait
is `pthread_cond_wait` called at depth 1, which leaves depth 0 while
blocked; 0 while waiting; and 0 while a request is handled. -/
theorem worker_lock_depth (w : QueueWorld) (done : Int) (es : List Interference)
    (s : WorkerState) (h : worker_steps (worker_start w done) es = some s) :
    s.world.depth = hold_depth_at s.pc ∧
      (s.pc = WorkerPc.top →
        s.world.depth = 1 ∧ (get_requests_number s.world).1.depth = 1 ∧
        (∀ w2 p, get_request (get_requests_number s.world).1 = some (w2, p) → w2.depth = 1) ∧
        ∀ e s2, worker_step s e = some s2 → s2.pc = WorkerPc.waiting →
          s2.world = pthread_cond_wait_block (get_requests_number s.world).1 ∧
          s2.world.depth = 0) ∧
      (s.pc = WorkerPc.waiting → s.world.depth = 0) ∧
      (∀ a, s.pc = WorkerPc.handling a →
        s.world.depth = 0 ∧ (handle_request s.world (some a)).depth = 0) := by
  have hd := worker_steps_depth (worker_start_depth w done) h
  refine ⟨hd, ?_, ?_, ?_⟩
  · intro hpc
    rw [hpc] at hd
    simp only [hold_depth_at] at hd
    have hn := (get_requests_number_frame s.world).1
    refine ⟨hd, by rw [hn]; exact hd, ?_, ?_⟩
    · intro w2 p hg
      rw [get_request_depth hg, hn]; exact hd
    · intro e s2 hstep hwait
      have hd2 := worker_step_depth (by rw [hpc]; exact hd) hstep
      rw [hwait] at hd2
      refine ⟨?_, hd2⟩
      obtain ⟨pc, w1, d⟩ := s
      simp only at hpc
      subst hpc
      simp only [worker_step] at hstep
      split at hstep
      · split at hstep
        · cases hstep
        · cases hstep
          cases hwait
        · cases hstep
          cases hwait
      · split at hstep
        · cases hstep
          cases hwait
        · cases hstep
          rfl
  · intro hpc
    rw [hpc] at hd
    exact hd
  · intro a hpc
    rw [hpc] at hd
    exact ⟨hd, hd⟩

/-- C17, witness: a new thread on the new queue, flag clear, locks (top of
the loop, depth 1) and, finding nothing, waits (depth 0). -/
theorem worker_lock_depth_witness :
    (∃ s, worker_steps (worker_start init_requests_queue 0)
        [⟨fun _ => none, init_requests_queue.queue, 0, false⟩] = some s ∧
      s.pc = WorkerPc.top ∧ s.world.depth = 1) ∧
    (∃ s, worker_steps (worker_start init_requests_queue 0)
        [⟨fun _ => none, init_requests_queue.queue, 0, false⟩,
         ⟨fun _ => none, init_requests_queue.queue, 0, false⟩] = some s ∧
      s.pc = WorkerPc.waiting ∧ s.world.depth = 0) :=
  ⟨⟨_, rfl, rfl,
      ((worker_lock_depth init_requests_queue 0
        [⟨fun _ => none, init_requests_queue.queue, 0, false⟩] _ rfl).2.1 rfl).1⟩,
    ⟨_, rfl, rfl,
      (worker_lock_depth init_requests_queue 0
        [⟨fun _ => none, init_requests_queue.queue, 0, false⟩,
         ⟨fun _ => none, init_requests_queue.queue, 0, false⟩] _ rfl).2.2.1 rfl⟩⟩

/-- C18 (the tail pointer of the pool stays usable): `remove_first_handler_thread`
never changes `last_thread`; yet in every pool reached from
`init_handler_threads_pool`, whenever `num_threads > 0` the list from
`threads` is not empty and `last_thread` is its last node; and when
`num_threads == 0`, whatever `last_thread` still holds, an
`add_handler_thread` at a fresh address `a` (id counter below `INT_MAX`) has
a result whose list is the single node `a`, with `threads` and `last_thread`
both `a`, and whose heap differs from the old one only at `a`. -/
theorem last_thread_usable (cs : List PoolCall) (w : PoolWorld)
    (h : pool_calls init_handler_threads_pool cs = some w) :
    (∀ w2 p, remove_first_handler_thread w = some (w2, p) →
        w2.pool.last_thread = w.pool.last_thread) ∧
      (w.pool.num_threads > 0 →
        ∃ l, l ≠ [] ∧ isChain handler_thread.next w.mem w.pool.threads l = true ∧
          w.pool.last_thread = l.getLast?) ∧
      (w.pool.num_threads = 0 →
        ∀ (a p t : Nat), w.mem a = none → w.pool.max_thr_id < INT_MAX →
        ∃ w2, add_handler_thread w (some a) (some p) t = some w2 ∧
          w2.pool.threads = some a ∧ w2.pool.last_thread = some a ∧
          isChain handler_thread.next w2.mem w2.pool.threads [a] = true ∧
          w2.pool.num_threads = 1 ∧ ∀ x, x ≠ a → w2.mem x = w.mem x) := by
  obtain ⟨l, hinv, _, _⟩ := pool_calls_init_inv h
  refine ⟨?_, ?_, ?_⟩
  · intro w2 p hrem
    simp only [remove_first_handler_thread] at hrem
    split at hrem
    · split at hrem
      · cases hrem; rfl
      · split at hrem
        · cases hrem
        · cases hrem; rfl
    · cases hrem; rfl
  · intro hpos
    have hne : l ≠ [] := by
      rintro rfl
      have := hinv.2.2.1
      simp only [List.length_nil, Nat.cast_zero] at this
      omega
    exact ⟨l, hne, hinv.1, hinv.2.2.2.1 hne⟩
  · intro h0 a p t ha hid
    have h1 : (0 : Int) < INT_MAX := by decide
    have hstep : add_handler_thread w (some a) (some p) t =
        some { mem := store w.mem a
                 (some { thread := t, thr_id := w.pool.max_thr_id, next := none })
               pool := { threads := some a, last_thread := some a, num_threads := 0 + 1,
                         max_thr_id := w.pool.max_thr_id + 1 }
               log := w.log ++ [PoolEvent.create t w.pool.max_thr_id] } := by
      simp only [add_handler_thread, ha, Option.isSome_none, Bool.false_eq_true, if_false,
        add_handler_thread_link, h0, if_true, int_incr, h1, hid]
    refine ⟨_, hstep, rfl, rfl, ?_, rfl, ?_⟩
    · exact isChain_cons.mpr ⟨rfl, _, store_same a _, isChain_nil.mpr rfl⟩
    · intro x hx
      exact store_other _ hx

/-- C18, witness: one thread is created at address 0 and deleted, which
leaves `last_thread` pointing to the freed block 0; the next thread, created
at address 5, becomes head and tail of a one-element list. -/
theorem last_thread_usable_witness :
    ∃ w w2,
      pool_calls init_handler_threads_pool
        [PoolCall.add (some 0) (some 10) 100, PoolCall.delete] = some w ∧
      w.pool.num_threads = 0 ∧ w.pool.last_thread = some 0 ∧ w.mem 0 = none ∧
      add_handler_thread w (some 5) (some 11) 101 = some w2 ∧
      w2.pool.threads = some 5 ∧ w2.pool.last_thread = some 5 ∧ w2.mem 0 = none := by
  obtain ⟨w2, h2, hhead, hlast, _, _, hframe⟩ := (last_thread_usable
    [PoolCall.add (some 0) (some 10) 100, PoolCall.delete] _ rfl).2.2 rfl 5 11 101 rfl
    (by decide)
  exact ⟨_, w2, rfl, rfl, rfl, rfl, h2, hhead, hlast, hframe 0 (by decide)⟩

/-- C19 (the sanity assertion of the disposal holds): in every pool reached
from `init_handler_threads_pool`, `num_threads > 0` implies that `threads`
is not `NULL`, that `remove_first_handler_thread` returns a node and not
`NULL`, and that it leaves `num_threads` strictly smaller; and
`delete_handler_threads_pool`, which has no result when `assert(a_thread)`
fails in some iteration, has a result, with `num_threads == 0`. -/
theorem dispose_assert_holds (cs : List PoolCall) (w : PoolWorld)
    (h : pool_calls init_handler_threads_pool cs = some w) :
    (w.pool.num_threads > 0 →
        w.pool.threads ≠ none ∧
        ∃ w2 a, remove_first_handler_thread w = some (w2, some a) ∧
          w2.pool.num_threads < w.pool.num_threads) ∧
      ∃ w3, delete_handler_threads_pool w = some w3 ∧ w3.pool.num_threads = 0 := by
  obtain ⟨l, hinv, _, _⟩ := pool_calls_init_inv h
  refine ⟨?_, ?_⟩
  · intro hpos
    cases l with
    | nil =>
      have := hinv.2.2.1
      simp only [List.length_nil, Nat.cast_zero] at this
      omega
    | cons x l =>
      obtain ⟨_, _, w2, h2, _, _, _, _, hnum2, _⟩ := remove_first_handler_thread_cons hinv
      have hhead := (isChain_cons.mp hinv.1).1
      refine ⟨by rw [hhead]; simp, w2, x, h2, ?_⟩
      rw [hnum2]; omega
  · obtain ⟨w3, h3, _, hz, _⟩ := delete_handler_threads_pool_spec hinv
    exact ⟨w3, h3, hz⟩

/-- C19, witness: with two threads in the pool the head is not `NULL`,
`remove_first_handler_thread` returns the node 0, and the disposal has a
result. -/
theorem dispose_assert_holds_witness :
    ∃ w w2 w3,
      pool_calls init_handler_threads_pool
        [PoolCall.add (some 0) (some 10) 100, PoolCall.add (some 1) (some 11) 101] = some w ∧
      w.pool.threads ≠ none ∧
      remove_first_handler_thread w = some (w2, some 0) ∧
      delete_handler_threads_pool w = some w3 ∧ w3.pool.num_threads = 0 := by
  obtain ⟨hpos, w3, h3, hz⟩ := dispose_assert_holds
    [PoolCall.add (some 0) (some 10) 100, PoolCall.add (some 1) (some 11) 101] _ rfl
  exact ⟨_, _, w3, rfl, (hpos (by decide)).1, rfl, h3, hz⟩

end PthreadGuide
